import Mathlib

/-!
# Verification of the PolarDB-FileSystem SDK client

A shallow embedding, in Lean 4, of the client-side SDK of
PolarDB-FileSystem (`pfsd_sdk.cc`, `pfsd_sdk_file.cc`, `pfsd_sdk_mount.cc`),
together with theorems about the embedded operations:

* path normalization (`pfsd_normalize_path`),
* the ESTALE staleness-retry loop (`CHECK_STALE`),
* write/read request construction (`pfsd_file_pwrite`, `pfsd_file_pread`,
  `pfsd_pwrite`, `pfsd_write`),
* local and delegated `lseek` (`local_file_lseek`, `pfsd_file_lseek`),
* the file-descriptor table with its intrusive free-list
  (`fd_get_free`, `fd_put_free`, `pfsd_get_file`, `pfsd_close_file`,
  `pfsd_close_all_files`, `pfsd_sdk_file_reinit`),
* the mount-preparation fencing-lock loop (`pfs_mount_prepare`,
  `pfsd_paxos_hostid_local_lock`).

Interactions with the daemon go through the shared-memory channel; the
daemon's replies are modelled as an oracle: a list of responses consumed
one per `pfsd_chnl_send_recv` call.  Machine integers are modelled as
`Int`/`Nat` with explicit reduction modulo `2^w` where the C code relies
on wrap-around.  C strings are modelled as `List Char`.
-/

namespace PFSD

/-! ## errno constants (Linux values, as used by the source) -/

def EAGAIN : Int := 11
def ENOMEM : Int := 12
def EACCES : Int := 13
def EBADF : Int := 9
def ENODEV : Int := 19
def EINVAL : Int := 22
def EMFILE : Int := 24
def EFBIG : Int := 27
def EROFS : Int := 30
def ENAMETOOLONG : Int := 36
def EOVERFLOW : Int := 75
def ETIMEDOUT : Int := 110
def ESTALE : Int := 116

/-! ## Size constants -/

/-- `PFSD_MAX_NFD` from `pfsd_sdk_file.cc`: the fd table has 102400 slots. -/
def PFSD_MAX_NFD : Nat := 102400

/-- `PFS_MAX_PATHLEN`: size of every path buffer.  The defining header
(`pfsd_common.h`) is not among the sources; the repository's value is 4096. -/
def PFS_MAX_PATHLEN : Nat := 4096

/-- Modelled from the spec: `NAMELEN_MAX` (`PFS_MAX_NAMELEN`), the bound on a
single path component, rejected with `ENAMETOOLONG` when reached.  The header
defining it is not among the sources; the repository's value 256 is used
(the theorems below do not depend on the particular value). -/
def PFS_MAX_NAMELEN : Nat := 256

/-- Modelled from the spec: `IOSIZE_MAX = 4 MiB` (`PFSD_MAX_IOSIZE`); the
defining header is not among the sources; the spec states the value 4 MiB. -/
def PFSD_MAX_IOSIZE : Nat := 4194304

/-- Modelled from the spec: `PBDLEN_MAX = 64` (`PFS_MAX_PBDLEN`). -/
def PFS_MAX_PBDLEN : Nat := 64

/-- `DEFAULT_MAX_HOSTS`: hostid ceiling used for the growfs meta-lock region;
the defining header is not among the sources; the repository's value is 255.
No theorem below depends on the particular value. -/
def DEFAULT_MAX_HOSTS : Nat := 255

/-! ## Path normalization (`pfsd_normalize_path`, `pfsd_sdk_file.cc`)

A C string is a `List Char`.  `strtok_r(path, "/", ...)` yields exactly the
nonempty maximal runs of non-`'/'` characters, in order. -/

/-- Split a character list on `'/'`; auxiliary accumulator form. -/
def splitSlash : List Char → List Char → List (List Char)
  | [], acc => [acc.reverse]
  | c :: rest, acc =>
    if c = '/' then acc.reverse :: splitSlash rest []
    else splitSlash rest (c :: acc)

/-- The token sequence produced by the `strtok_r` loop of
`pfsd_normalize_path`: nonempty runs between `'/'` separators. -/
def tokenize (path : List Char) : List (List Char) :=
  (splitSlash path []).filter (fun t => t ≠ [])

/-- The component-processing loop of `pfsd_normalize_path`: for each token,
reject names of length `≥ PFS_MAX_NAMELEN` with `-ENAMETOOLONG`; `..` pops the
last collected directory, but only when more than one has been collected;
`.` is skipped; any other name is appended (with the `ndirs ≥ PFS_MAX_PATHLEN`
overflow guard).  `dirs` is the `dirs[]`/`ndirs` accumulator. -/
def normLoop : List (List Char) → List (List Char) → Except Int (List (List Char))
  | [], dirs => .ok dirs
  | name :: rest, dirs =>
    if PFS_MAX_NAMELEN ≤ name.length then .error (-ENAMETOOLONG)
    else if name = ['.', '.'] then
      normLoop rest (if 1 < dirs.length then dirs.dropLast else dirs)
    else if name = ['.'] then normLoop rest dirs
    else if PFS_MAX_PATHLEN ≤ dirs.length then .error (-ENAMETOOLONG)
    else normLoop rest (dirs ++ [name])

/-- The rebuilding step of `pfsd_normalize_path`: `"/" + dir` for each
collected directory, and a trailing `'/'` exactly when a single directory
remains (`/1-1` must become `/1-1/`). -/
def rebuildPath (dirs : List (List Char)) : List Char :=
  (dirs.map (fun d => '/' :: d)).flatten ++ (if dirs.length = 1 then ['/'] else [])

/-- `pfsd_normalize_path` from `pfsd_sdk_file.cc`.  Returns `none` when the
internal `assert(ndirs > 0)` fails (no real component survived), otherwise
`some (err, path')` with `err = 0` on success (in which case the buffer is
rewritten) or `err = -ENAMETOOLONG` (buffer untouched).  A null or empty
path returns 0 immediately without rewriting. -/
def pfsd_normalize_path (pbdpath : List Char) : Option (Int × List Char) :=
  if pbdpath = [] then some (0, pbdpath)
  else
    match normLoop (tokenize pbdpath) [] with
    | .error e => some (e, pbdpath)
    | .ok dirs =>
      if dirs.length = 0 then none
      else some (0, rebuildPath dirs)

/-! ## The staleness-retry loop (`CHECK_STALE`, `pfsd_sdk.cc`)

Every request/response exchange in `pfsd_sdk.cc` has the shape

```
retry:
    pfsd_chnl_buffer_alloc(...);
    /* fill request */
    pfsd_chnl_send_recv(...);
    CHECK_STALE(rsp);          // absent only for an O_APPEND write
    /* handle rsp */
    pfsd_chnl_buffer_free(...);
```

where `CHECK_STALE` clears `rsp->error`, calls
`pfsd_chnl_update_meta(conn_id, req->mntid)`, frees the buffers and jumps
back to `retry` whenever `rsp->error == ESTALE`.  The daemon is an oracle:
a list of responses consumed one per `send_recv`.  `sendWithStaleRetry`
returns the response finally handed to the response-handling code together
with the number of `update_meta`/free/realloc cycles taken, or `none` when
the oracle is exhausted (the exchange would still be retrying).
`suppress` is true exactly for a write on an `O_APPEND` file, where the
source guards `CHECK_STALE` by `(file->f_flags & O_APPEND) == 0`. -/
def sendWithStaleRetry {α : Type} (err : α → Int) (suppress : Bool) :
    List α → Option (α × Nat)
  | [] => none
  | r :: rest =>
    if err r = ESTALE ∧ suppress = false then
      match sendWithStaleRetry err suppress rest with
      | none => none
      | some (r', n) => some (r', n + 1)
    else some (r, 0)

/-! ## File handles and mount flags -/

/-- Mount capability bits (`MNTFLG_*`).  The defining header is not among
the sources; bit values per the repository; the theorems depend only on
the bits being distinct. -/
def MNTFLG_RD : Nat := 0x0001
def MNTFLG_WR : Nat := 0x0002
def MNTFLG_LOG : Nat := 0x0010
def MNTFLG_TOOL : Nat := 0x0100

/-- `pfsd_writable` from `pfsd_sdk_file.cc`: `(flags & MNTFLG_WR) != 0`. -/
def pfsd_writable (flags : Nat) : Bool := flags &&& MNTFLG_WR ≠ 0

/-- `O_APPEND` (Linux: octal 02000). -/
def O_APPEND : Nat := 1024

/-- The sentinel offsets of `pfsd_sdk.cc`:
`OFFSET_FILE_POS = -1` ("offset is current file position") and
`OFFSET_FILE_SIZE = -2` ("offset is file size", i.e. append at EOF). -/
def OFFSET_FILE_POS : Int := -1
def OFFSET_FILE_SIZE : Int := -2

/-- The client-side per-open state `pfsd_file_t` (fields used by the
operations modelled here).  `f_mp` is the owning mount, by identifier;
`none` is the null pointer after teardown. -/
structure pfsd_file where
  f_fd : Int
  f_inode : Int
  f_flags : Nat
  f_offset : Int
  f_conn_id : Int
  f_mp : Option Nat
  f_refcnt : Int
deriving DecidableEq

/-! ## Write path (`pfsd_file_pwrite`, `pfsd_pwrite`, `pfsd_write`) -/

/-- A WRITE request as filled by `pfsd_file_pwrite`. -/
structure WriteReq where
  w_ino : Int
  w_len : Nat
  w_off : Int
  w_flags : Nat
deriving DecidableEq

/-- A WRITE response from the daemon oracle. -/
structure WriteRsp where
  error : Int
  w_len : Int
  w_file_size : Int
deriving DecidableEq

/-- Result of one `pfsd_file_pwrite` call: return value, the errno
assignment (if any), the file state after the call, the requests sent
(one per `send_recv` attempt, identical re-fills of the same request),
and the unconsumed tail of the daemon oracle. -/
structure PwriteRes where
  ret : Int
  errnoOut : Option Int
  file : pfsd_file
  reqs : List WriteReq
  rsps : List WriteRsp
deriving DecidableEq

/-- `pfsd_file_pwrite` from `pfsd_sdk.cc` (lines 814–894).  `mpFlags` is
`file->f_mp->flags`; `bufNull` models a null `buf` argument.  Channel
buffer allocation is assumed to succeed (its failure path returns `ENOMEM`
before any request is sent and is outside every claim below).  Returns
`none` when the daemon oracle is exhausted mid-retry. -/
def pfsd_file_pwrite (mpFlags : Nat) (file : pfsd_file) (bufNull : Bool)
    (len : Nat) (off : Int) (oracle : List WriteRsp) : Option PwriteRes :=
  if bufNull then some ⟨-1, some EINVAL, file, [], oracle⟩
  else if pfsd_writable mpFlags = false then some ⟨-1, some EROFS, file, [], oracle⟩
  else if len = 0 then some ⟨0, none, file, [], oracle⟩
  else if PFSD_MAX_IOSIZE < len then some ⟨-1, some EFBIG, file, [], oracle⟩
  else
    let off2 : Int :=
      if file.f_flags &&& O_APPEND ≠ 0 then OFFSET_FILE_SIZE
      else if off = OFFSET_FILE_POS then file.f_offset
      else off
    if off2 < 0 ∧ off2 ≠ OFFSET_FILE_SIZE then some ⟨-1, some EINVAL, file, [], oracle⟩
    else
      let req : WriteReq := ⟨file.f_inode, len, off2, file.f_flags⟩
      let suppress := decide (file.f_flags &&& O_APPEND ≠ 0)
      match sendWithStaleRetry WriteRsp.error suppress oracle with
      | none => none
      | some (rsp, n) =>
        let ss := rsp.w_len
        if ss < 0 then
          some ⟨ss, some rsp.error, file, List.replicate (n + 1) req, oracle.drop (n + 1)⟩
        else
          -- the two successive stores `f_offset += ss` (when `ss >= 0 && off == -1`)
          -- and `f_offset = w_rsp.w_file_size` (when `(f_flags & O_APPEND) && off ==
          -- OFFSET_FILE_POS`) composed into one update of the only mutated field
          let noff1 := if 0 ≤ ss ∧ off = -1 then file.f_offset + ss else file.f_offset
          let noff2 := if file.f_flags &&& O_APPEND ≠ 0 ∧ OFFSET_FILE_POS = off then
                         rsp.w_file_size else noff1
          some ⟨ss, none, { file with f_offset := noff2 }, List.replicate (n + 1) req,
                oracle.drop (n + 1)⟩

/-- The chunking loop shared by `pfsd_write` and `pfsd_pwrite`:
`while (len > 0) { to_write = min(len, PFSD_MAX_IOSIZE); rc =
pfsd_file_pwrite(file, cbuf+total, to_write, offArg(total)); ... }`,
returning `err ? err : total`.  `offArg total` is `off + total` for
`pfsd_pwrite` and the constant `OFFSET_FILE_POS` for `pfsd_write`.
`len -= rc` is the C `size_t` subtraction, taken modulo `2^64`.
`fuel` bounds the number of iterations; every iteration that continues
consumes at least one oracle entry, so `oracle.length + 1` is always
enough, and exhaustion yields `none`. -/
def pwrite_loop (mpFlags : Nat) (bufNull : Bool) (offArg : Nat → Int) :
    Nat → pfsd_file → Nat → Nat → List WriteRsp → List WriteReq →
    Option (Int × Option Int × pfsd_file × List WriteReq × List WriteRsp)
  | 0, _, _, _, _, _ => none
  | fuel + 1, file, len, total, oracle, reqs =>
    if len = 0 then some ((total : Int), none, file, reqs, oracle)
    else
      let to_write := min len PFSD_MAX_IOSIZE
      match pfsd_file_pwrite mpFlags file bufNull to_write (offArg total) oracle with
      | none => none
      | some res =>
        if 0 < res.ret then
          pwrite_loop mpFlags bufNull offArg fuel res.file
            (((len + 2 ^ 64) - res.ret.toNat % 2 ^ 64) % 2 ^ 64)
            (total + res.ret.toNat) res.rsps (reqs ++ res.reqs)
        else
          some (if res.ret ≠ 0 then res.ret else (total : Int), res.errnoOut,
                res.file, reqs ++ res.reqs, res.rsps)

/-- Events observable in the write paths: taking and releasing the file's
`f_lseek_lock`, and sending a WRITE request. -/
inductive Act
  | lockLseek
  | unlockLseek
  | sendW (r : WriteReq)
deriving DecidableEq

/-- `pfsd_pwrite` from `pfsd_sdk.cc` (lines 777–812), after the
`PFSD_SDK_GET_FILE` prologue has produced `file` (the prologue itself is
modelled with the fd table below).  The `f_lseek_lock` acquisition and
release, performed exactly when the file was opened with `O_APPEND`,
surround the whole chunking loop and appear in the action trace. -/
def pfsd_pwrite (mpFlags : Nat) (file : pfsd_file) (bufNull : Bool)
    (len : Nat) (off : Int) (oracle : List WriteRsp) :
    Option (Int × Option Int × pfsd_file × List Act × List WriteRsp) :=
  if off < 0 then some (-1, some EINVAL, file, [], oracle)
  else
    let append := file.f_flags &&& O_APPEND ≠ 0
    match pwrite_loop mpFlags bufNull (fun total => off + total)
        (oracle.length + 1) file len 0 oracle [] with
    | none => none
    | some (ret, eo, f', reqs, rest) =>
      some (ret, eo, f',
        (if append then [Act.lockLseek] else []) ++ reqs.map Act.sendW ++
          (if append then [Act.unlockLseek] else []),
        rest)

/-- `pfsd_write` from `pfsd_sdk.cc` (lines 748–775): holds `f_lseek_lock`
across the whole loop unconditionally and passes `OFFSET_FILE_POS` as the
offset of every chunk. -/
def pfsd_write (mpFlags : Nat) (file : pfsd_file) (bufNull : Bool)
    (len : Nat) (oracle : List WriteRsp) :
    Option (Int × Option Int × pfsd_file × List Act × List WriteRsp) :=
  match pwrite_loop mpFlags bufNull (fun _ => OFFSET_FILE_POS)
      (oracle.length + 1) file len 0 oracle [] with
  | none => none
  | some (ret, eo, f', reqs, rest) =>
    some (ret, eo, f',
      [Act.lockLseek] ++ reqs.map Act.sendW ++ [Act.unlockLseek], rest)

/-! ## Read path (`pfsd_file_pread`) -/

/-- A READ request as filled by `pfsd_file_pread`. -/
structure ReadReq where
  r_ino : Int
  r_len : Nat
  r_off : Int
deriving DecidableEq

/-- A READ response from the daemon oracle. -/
structure ReadRsp where
  error : Int
  r_len : Int
deriving DecidableEq

/-- `pfsd_file_pread` from `pfsd_sdk.cc` (lines 688–746): an over-long
read is shortened to `PFSD_MAX_IOSIZE` ("may shorten read") rather than
rejected; a negative offset fails with `EINVAL`. -/
def pfsd_file_pread (file : pfsd_file) (bufNull : Bool) (len : Nat)
    (off : Int) (oracle : List ReadRsp) :
    Option (Int × Option Int × List ReadReq × List ReadRsp) :=
  if bufNull then some (-1, some EINVAL, [], oracle)
  else
    let len2 := if PFSD_MAX_IOSIZE < len then PFSD_MAX_IOSIZE else len
    if off < 0 then some (-1, some EINVAL, [], oracle)
    else
      let req : ReadReq := ⟨file.f_inode, len2, off⟩
      match sendWithStaleRetry ReadRsp.error false oracle with
      | none => none
      | some (rsp, n) =>
        if rsp.r_len < 0 then
          some (rsp.r_len, some rsp.error, List.replicate (n + 1) req, oracle.drop (n + 1))
        else
          some (rsp.r_len, none, List.replicate (n + 1) req, oracle.drop (n + 1))

/-! ## lseek (`local_file_lseek`, `pfsd_file_lseek`) -/

def SEEK_SET : Nat := 0
def SEEK_CUR : Nat := 1
def SEEK_END : Nat := 2

/-- Two's-complement 64-bit signed addition, the behaviour relied on by
`new_offset = old_offset + offset` in `local_file_lseek`. -/
def iadd64 (a b : Int) : Int := (a + b + 2 ^ 63) % 2 ^ 64 - 2 ^ 63

/-- `local_file_lseek` from `pfsd_sdk.cc` (lines 1238–1286).  Returns
`(rv, errno-assignment, file')`.  `SEEK_SET` jumps straight to the
negativity check; `SEEK_CUR` detects wrap-around by sign comparison;
`SEEK_END` sets `errno = 0` and returns `-1` to request daemon
delegation; any other whence fails with `EINVAL`. -/
def local_file_lseek (file : pfsd_file) (offset : Int) (whence : Nat) :
    Int × Option Int × pfsd_file :=
  if whence = SEEK_SET then
    if offset < 0 then (-1, some EINVAL, file)
    else (offset, none, { file with f_offset := offset })
  else if whence = SEEK_CUR then
    let old := file.f_offset
    let nw := iadd64 old offset
    if 0 < offset ∧ nw < old then (-1, some EOVERFLOW, file)
    else if offset < 0 ∧ old < nw then (-1, some EOVERFLOW, file)
    else if nw < 0 then (-1, some EINVAL, file)
    else (nw, none, { file with f_offset := nw })
  else if whence = SEEK_END then (-1, some 0, file)
  else (-1, some EINVAL, file)

/-- An LSEEK request as filled by `pfsd_file_lseek`. -/
structure LseekReq where
  l_ino : Int
  l_offset : Int
  l_whence : Nat
deriving DecidableEq

/-- An LSEEK response from the daemon oracle. -/
structure LseekRsp where
  error : Int
  l_offset : Int
deriving DecidableEq

/-- `pfsd_file_lseek` from `pfsd_sdk.cc` (lines 1303–1352): resolve
locally; only when the local attempt returned `-1` with `errno == 0`
(the `SEEK_END` signal) is an `LSEEK` request sent to the daemon, whose
returned offset becomes the new file position on success. -/
def pfsd_file_lseek (file : pfsd_file) (offset : Int) (whence : Nat)
    (oracle : List LseekRsp) :
    Option (Int × Option Int × pfsd_file × List LseekReq × List LseekRsp) :=
  match local_file_lseek file offset whence with
  | (rv, eo, f1) =>
    if 0 ≤ rv then some (rv, eo, f1, [], oracle)
    else if rv = -1 ∧ eo ≠ some 0 then some (rv, eo, f1, [], oracle)
    else
      let req : LseekReq := ⟨file.f_inode, offset, whence⟩
      match sendWithStaleRetry LseekRsp.error false oracle with
      | none => none
      | some (rsp, n) =>
        if rsp.l_offset < 0 then
          some (-1, some rsp.error, f1, List.replicate (n + 1) req, oracle.drop (n + 1))
        else
          some (rsp.l_offset, none, { f1 with f_offset := rsp.l_offset },
                List.replicate (n + 1) req, oracle.drop (n + 1))

/-! ## The file-descriptor table (`pfsd_sdk_file.cc`)

`static pfsd_file_t *fdtbl[PFSD_MAX_NFD]` stores 64-bit words: a null
pointer (never-used slot), an even nonnull `pfsd_file_t *` (live slot), or
the odd word `2 * next_free + 1` linking the intrusive free-list.  A slot
is one of three shapes; the odd link word is kept verbatim so that the
encode/decode arithmetic of the source can be stated. -/

inductive Slot
  | empty
  | live (f : pfsd_file)
  | enc (v : Int)
deriving DecidableEq

/-- The word read by `(uint64_t)fdtbl[fd]`.  Live pointers are never
decoded by the source (the invariant below keeps the free-list head on
`enc` slots); their numeric value is memory layout and is irrelevant. -/
def Slot.word : Slot → Int
  | .empty => 0
  | .live _ => 0
  | .enc v => v

/-- `(int)(((uint64_t)fdtbl[fdtbl_free_last]) / 2)`: reinterpret the slot
word as an unsigned 64-bit value, halve, truncate to a signed 32-bit int.
On the stored link `2 * next + 1` this recovers `next`, including
`next = -1` ("Attention `(int)(((uint64_t)-1) / 2) == -1`"). -/
def decodeLink (v : Int) : Int :=
  let u : Nat := (v % (2 ^ 64 : Int)).toNat
  let w : Nat := u / 2 % 2 ^ 32
  if w < 2 ^ 31 then (w : Int) else (w : Int) - 2 ^ 32

/-- The process-wide fd-table state: `tbl`, `free_last`, `nopen` are
`fdtbl`, `fdtbl_free_last`, `fdtbl_nopen` of the source.  `nextid` and
`peak` are specification observers, not C state: `nextid` tags each
freshly opened handle (standing in for the daemon-assigned inode) and
`peak` records the high-water mark of `nopen` over the history. -/
structure FdState where
  tbl : Nat → Slot
  free_last : Int
  nopen : Nat
  nextid : Nat
  peak : Nat

/-- `fd_to_file`: a slot yields a file iff it is nonnull with an even
word, i.e. a live pointer. -/
def fd_to_file (tbl : Nat → Slot) (fd : Nat) : Option pfsd_file :=
  match tbl fd with
  | .live f => some f
  | _ => none

/-- `pfsd_alloc_fd`/`fd_get_free`: pop the free-list head when there is
one, else extend the array at index `fdtbl_nopen` while below
`PFSD_MAX_NFD`; `-1` when the table is full.  The allocated file's
`f_fd` is set to the returned descriptor. -/
def pfsd_alloc_fd (file : pfsd_file) (s : FdState) : Int × FdState :=
  if s.free_last < 0 then
    if s.nopen < PFSD_MAX_NFD then
      let fd := s.nopen
      ((fd : Int),
       { s with tbl := Function.update s.tbl fd (Slot.live { file with f_fd := (fd : Int) }),
                nopen := s.nopen + 1, peak := max s.peak (s.nopen + 1) })
    else (-1, s)
  else
    let fd := s.free_last.toNat
    let nxt := decodeLink (s.tbl fd).word
    ((fd : Int),
     { s with tbl := Function.update s.tbl fd (Slot.live { file with f_fd := (fd : Int) }),
              free_last := nxt, nopen := s.nopen + 1, peak := max s.peak (s.nopen + 1) })

/-- `fd_put_free`: push `fd` as the new free-list head, storing the link
word `fdtbl_free_last * 2 + 1`. -/
def fd_put_free (fd : Nat) (s : FdState) : FdState :=
  { s with tbl := Function.update s.tbl fd (Slot.enc (2 * s.free_last + 1)),
           free_last := (fd : Int), nopen := s.nopen - 1 }

/-- `pfsd_get_file`: bounds-check the descriptor and read the slot.  The
`f_refcnt` increment and the rwlock acquisition are concurrency
bookkeeping that do not change the returned value; traces here are
sequential.  (The `PFSD_FD_MAKE`/`PFSD_FD_RAW` user-fd tagging lives in a
header that is not among the sources; descriptors here are the raw table
indices the tag is stripped to.) -/
def pfsd_get_file (s : FdState) (fd : Int) : Option pfsd_file :=
  if 0 ≤ fd ∧ fd < (PFSD_MAX_NFD : Int) then fd_to_file s.tbl fd.toNat else none

/-- The `PFSD_SDK_GET_FILE` prologue (`pfsd_sdk.cc` lines 607–626) run by
every fd-based operation: unknown fd ⇒ `EBADF`; live file whose `f_mp`
is null (mount torn down) ⇒ `ENODEV`. -/
def pfsd_sdk_get_file (s : FdState) (fd : Int) : Except Int pfsd_file :=
  match pfsd_get_file s fd with
  | none => .error EBADF
  | some f =>
    match f.f_mp with
    | none => .error ENODEV
    | some _ => .ok f

/-- `pfsd_close` (`pfsd_sdk.cc` lines 1354–1383) on a quiescent table:
with no concurrent borrower, `f_refcnt` is 1 after the close's own
`pfsd_get_file`, so `pfsd_close_file` frees the slot on the first
iteration of the `-EAGAIN` loop.  Returns `(ret, errno-assignment,
state)`. -/
def pfsd_close (s : FdState) (fd : Int) : Int × Option Int × FdState :=
  match pfsd_get_file s fd with
  | none => (-1, some EBADF, s)
  | some f => (0, none, fd_put_free f.f_fd.toNat s)

/-- The per-slot action of `pfsd_close_all_files`: a live file of the
unmounted `mp` gets `f_conn_id = -1` and `f_mp = NULL`; everything else
is untouched. -/
def invalidateSlot (mp : Nat) : Slot → Slot
  | .live f =>
    if f.f_mp = some mp then Slot.live { f with f_conn_id := -1, f_mp := none }
    else Slot.live f
  | s => s

/-- `pfsd_close_all_files` (`pfsd_sdk_file.cc` lines 375–397): scan all
`PFSD_MAX_NFD` slots and invalidate the files of the given mount. -/
def pfsd_close_all_files (mp : Nat) (s : FdState) : FdState :=
  { s with tbl := fun i => if i < PFSD_MAX_NFD then invalidateSlot mp (s.tbl i) else s.tbl i }

/-- The descriptors whose files belong to `mp` — exactly those the scan
write-locks and rewrites. -/
def affectedFds (mp : Nat) (s : FdState) : List Nat :=
  (List.range PFSD_MAX_NFD).filter fun i =>
    match fd_to_file s.tbl i with
    | some f => f.f_mp = some mp
    | none => false

/-- Events of the invalidation scan: taking the file's write lock,
rewriting `f_conn_id`/`f_mp`, releasing the lock. -/
inductive UmountEvt
  | wrlock (fd : Nat)
  | setFields (fd : Nat)
  | unlock (fd : Nat)
deriving DecidableEq

/-- The event trace of `pfsd_close_all_files`: for each affected fd, in
table order, the rewrite happens between `pthread_rwlock_wrlock` and
`pthread_rwlock_unlock` of that file's `f_rwlock`. -/
def pfsd_close_all_files_trace (mp : Nat) (s : FdState) : List UmountEvt :=
  (affectedFds mp s).flatMap fun fd =>
    [UmountEvt.wrlock fd, UmountEvt.setFields fd, UmountEvt.unlock fd]

/-- `pfsd_umount` / `pfsd_umount_force` after the mount lookup: when the
channel close succeeds (`err == 0`) the invalidation scan and the
unregistration run; otherwise the table is untouched. -/
def pfsd_umount (chnlCloseOk : Bool) (mp : Nat) (s : FdState) : Int × FdState :=
  if chnlCloseOk then (0, pfsd_close_all_files mp s) else (-1, s)

/-- `pfsd_sdk_file_reinit` (`pfsd_sdk_file.cc` lines 57–72), the fd-table
part of the atfork-child path.  The source clears the table with
`memset(fdtbl, 0, sizeof(*fdtbl))`; `sizeof(*fdtbl)` is the size of one
`pfsd_file_t *` (8 bytes), so exactly slot 0 is zeroed while
`fdtbl_free_last` and `fdtbl_nopen` are reset. -/
def pfsd_sdk_file_reinit (s : FdState) : FdState :=
  { s with tbl := Function.update s.tbl 0 Slot.empty, free_last := -1, nopen := 0 }

/-- The fd-allocation prefix of `pfsd_open` (`pfsd_sdk.cc` lines 533–546):
a failed `pfsd_alloc_fd` frees the handle and fails with `EMFILE`. -/
def pfsd_open_fd (file : pfsd_file) (s : FdState) : Int × Option Int × FdState :=
  let (fd, s') := pfsd_alloc_fd file s
  if fd = -1 then (-1, some EMFILE, s) else (fd, none, s')

/-- A sequential trace of the two table-changing operations. -/
inductive FdOp
  | open (mp : Nat) (flags : Nat)
  | close (fd : Int)

/-- The fd table at process start: all slots null, empty free list. -/
def initFdState : FdState :=
  { tbl := fun _ => Slot.empty, free_last := -1, nopen := 0, nextid := 0, peak := 0 }

/-- One trace step.  `open` is `pfsd_open`'s table effect: allocate a
handle and a descriptor (on `EMFILE` the handle is freed and the table is
unchanged); the daemon-assigned fields (`f_inode`, `f_conn_id`, `f_mp`)
are installed on success.  `close` is `pfsd_close`. -/
def stepFd (s : FdState) : FdOp → FdState
  | .open mp flags =>
    let file : pfsd_file :=
      { f_fd := -1, f_inode := (s.nextid : Int), f_flags := flags, f_offset := 0,
        f_conn_id := (mp : Int), f_mp := some mp, f_refcnt := 0 }
    let (fd, s') := pfsd_alloc_fd file s
    if fd = -1 then s else { s' with nextid := s.nextid + 1 }
  | .close fd => (pfsd_close s fd).2.2

/-- Run a trace from the initial table. -/
def runFd (ops : List FdOp) : FdState := ops.foldl stepFd initFdState

/-- The number of live slots of the table. -/
def countLive (s : FdState) : Nat :=
  ((Finset.range PFSD_MAX_NFD).filter fun i => (fd_to_file s.tbl i).isSome).card

/-! ## Mount preparation and the fencing locks (`pfsd_sdk_mount.cc`) -/

def FLK_LEN : Nat := 1024
def MOUNT_PREPARE_TIMEOUT_MS : Nat := 30000

/-- `PFS_TOOL` as used on line 294 of `pfsd_sdk_mount.cc`; an alias of the
tool mount bit (defining header not among the sources). -/
def PFS_TOOL : Nat := MNTFLG_TOOL

/-- Environment of one `pfsd_paxos_hostid_local_lock` call: does
`open(2)` yield an fd, and does `fcntl(F_SETLK)` succeed. -/
structure LockAttempt where
  openFd : Option Nat
  fcntlOk : Bool

/-- `pfsd_paxos_hostid_local_lock` (`pfsd_sdk_mount.cc` lines 174–222):
`snprintf("/var/run/pfs/%s-paxos-hostid")` writes `26 + |pbdname|`
characters; overflow of the `PFS_MAX_PATHLEN` buffer is
`ENAMETOOLONG`; a failed `open` or a failed `fcntl` both coerce errno to
`EACCES`.  Returns `(fd-or-(-1), errno-assignment)`. -/
def pfsd_paxos_hostid_local_lock (pbdnameLen : Nat) (_hostid : Int)
    (att : LockAttempt) : Int × Option Int :=
  if PFS_MAX_PATHLEN ≤ pbdnameLen + 26 then (-1, some ENAMETOOLONG)
  else
    match att.openFd with
    | none => (-1, some EACCES)
    | some fd => if att.fcntlOk then ((fd : Int), none) else (-1, some EACCES)

/-- The advisory-lock byte range requested by
`pfsd_paxos_hostid_local_lock`: `[hostid*FLK_LEN, hostid*FLK_LEN + FLK_LEN)`
for `hostid > 0`, the whole file (`l_len = 0`) for `hostid = 0`. -/
def flockRange (hostid : Int) : Int × Int :=
  (hostid * (FLK_LEN : Int), if 0 < hostid then (FLK_LEN : Int) else 0)

/-- Environment of one `pfs_mount_prepare` call: the successive
meta-lock attempts of the back-off loop and the single hostid-lock
attempt. -/
structure PrepareEnv where
  metaAtt : Nat → LockAttempt
  hostidAtt : LockAttempt

/-- Result of `pfs_mount_prepare`: the outcome (errno on failure), and
how many times each of the two fencing locks was attempted, plus the
lock fds held on success. -/
structure PrepareRes where
  result : Except Int Unit
  metaAttempts : Nat
  hostidAttempts : Nat
  meta_lock_fd : Int
  hostid_lock_fd : Int

/-- The number of iterations of the meta-lock loop: `timeout_ms` runs
`30000, 29990, …, 0`, i.e. `MOUNT_PREPARE_TIMEOUT_MS / 10 + 1` attempts
before the `fd < 0 ⇒ ETIMEDOUT` exit. -/
def mountPrepareAttempts : Nat := MOUNT_PREPARE_TIMEOUT_MS / 10 + 1

/-- The meta-lock retry loop of `pfs_mount_prepare` (lines 269–289):
keep attempting `pfsd_paxos_hostid_local_lock(pbd, DEFAULT_MAX_HOSTS+1)`
with a 10 ms sleep while it fails with `EACCES` and the 30 s budget
lasts; a non-`EACCES` failure aborts at once; budget exhaustion yields
`ETIMEDOUT`.  Returns the outcome and the index after the last attempt. -/
def mount_meta_lock_loop (pbdnameLen : Nat) (env : Nat → LockAttempt) :
    Nat → Nat → Except Int Nat × Nat
  | 0, i => (.error ETIMEDOUT, i)
  | fuel + 1, i =>
    let (fd, eo) := pfsd_paxos_hostid_local_lock pbdnameLen
      ((DEFAULT_MAX_HOSTS : Int) + 1) (env i)
    if 0 ≤ fd then (.ok fd.toNat, i + 1)
    else
      let e := eo.getD 0
      if e ≠ EACCES then (.error e, i + 1)
      else mount_meta_lock_loop pbdnameLen env fuel (i + 1)

/-- The hostid-lock step of `pfs_mount_prepare` (lines 294–307): one
single `pfsd_paxos_hostid_local_lock` call (hostid `DEFAULT_MAX_HOSTS+2`
for a tool mount with hostid 0, the caller's hostid otherwise); any
failure goes to `err_handle`, which releases the partial locks and keeps
the errno (coercing 0 to `EINVAL`). -/
def prepare_hostid (pbdnameLen : Nat) (hostid : Int) (flags : Nat)
    (env : PrepareEnv) (mAtt : Nat) (mfd : Int) : PrepareRes :=
  let hid : Int :=
    if flags &&& PFS_TOOL ≠ 0 ∧ hostid = 0 then (DEFAULT_MAX_HOSTS : Int) + 2 else hostid
  let (hfd, heo) := pfsd_paxos_hostid_local_lock pbdnameLen hid env.hostidAtt
  if 0 ≤ hfd then ⟨.ok (), mAtt, 1, mfd, hfd⟩
  else
    let e := heo.getD 0
    ⟨.error (if e = 0 then EINVAL else e), mAtt, 1, -1, -1⟩

/-- `pfs_mount_prepare` (`pfsd_sdk_mount.cc` lines 232–327).  An
over-long pbdname is `EINVAL`; a read-only mount takes no local locks; a
writable non-tool mount first runs the meta-lock back-off loop, then
every writable mount takes the hostid lock once. -/
def pfs_mount_prepare (pbdnameLen : Nat) (hostid : Int) (flags : Nat)
    (env : PrepareEnv) : PrepareRes :=
  if PFS_MAX_PBDLEN ≤ pbdnameLen then ⟨.error EINVAL, 0, 0, -1, -1⟩
  else if flags &&& MNTFLG_WR = 0 then ⟨.ok (), 0, 0, -1, -1⟩
  else if flags &&& MNTFLG_TOOL = 0 then
    match mount_meta_lock_loop pbdnameLen env.metaAtt mountPrepareAttempts 0 with
    | (.error e, mAtt) => ⟨.error e, mAtt, 0, -1, -1⟩
    | (.ok mfd, mAtt) => prepare_hostid pbdnameLen hostid flags env mAtt (mfd : Int)
  else prepare_hostid pbdnameLen hostid flags env 0 (-1)

/-- A path component that is neither `"."` nor `".."` — the components
that `pfsd_normalize_path` keeps. -/
def realName (t : List Char) : Bool := t ≠ ['.'] && t ≠ ['.', '.']

/-- A concrete path whose second-to-last component has `PFS_MAX_NAMELEN`
characters while its last component is an ordinary short name: input for
the boundary theorems on `pfsd_normalize_path`. -/
def longCompPath : List Char := '/' :: (List.replicate PFS_MAX_NAMELEN 'a' ++ '/' :: ['b'])

/-! ## Specification artifacts for the fd-table invariant -/

/-- The integer stored in `fdtbl_free_last` when the free list is the
given chain of slot indices: the head, or `-1` when empty. -/
def flHead : List Nat → Int
  | [] => -1
  | f :: _ => (f : Int)

/-- The free list of the table is exactly the chain `fl₀ → fl₁ → …`: the
head matches `fdtbl_free_last`, each listed slot stores the encoded link
`2 * next + 1` to its successor (with `-1` closing the chain). -/
def isChain (tbl : Nat → Slot) : Int → List Nat → Prop
  | fl, [] => fl = -1
  | fl, f :: rest =>
    fl = (f : Int) ∧ f < PFSD_MAX_NFD ∧
    tbl f = Slot.enc (2 * flHead rest + 1) ∧ isChain tbl (flHead rest) rest

/-- The fd-table invariant: some chain of freed slots is threaded through
the array; all touched slots are `[0, nopen + |chain|)`, freed and live
slots partition that prefix, a live slot records its own index in
`f_fd`, every untouched slot is null, and the number of touched slots
never exceeded the high-water mark of simultaneously open files. -/
structure FdInv (s : FdState) (chain : List Nat) : Prop where
  chainOk : isChain s.tbl s.free_last chain
  nodup : chain.Nodup
  used_le : s.nopen + chain.length ≤ PFSD_MAX_NFD
  chain_lt : ∀ f ∈ chain, f < s.nopen + chain.length
  live_at : ∀ i, i < s.nopen + chain.length → i ∉ chain →
    ∃ f, s.tbl i = Slot.live f ∧ f.f_fd = (i : Int)
  empty_at : ∀ i, s.nopen + chain.length ≤ i → s.tbl i = Slot.empty
  peak_ge : s.nopen + chain.length ≤ s.peak

/-! # Theorems -/

/-! ## Helper lemmas on the staleness-retry loop -/

theorem staleRetry_surfaced {α : Type} (err : α → Int) :
    ∀ (rs : List α) (r : α) (n : Nat),
      sendWithStaleRetry err false rs = some (r, n) →
      err r ≠ ESTALE ∧ rs[n]? = some r ∧
        ∀ j, j < n → ∃ rj, rs[j]? = some rj ∧ err rj = ESTALE := by
  intro rs
  induction rs with
  | nil => intro r n h; simp [sendWithStaleRetry] at h
  | cons a rest ih =>
    intro r n h
    unfold sendWithStaleRetry at h
    by_cases ha : err a = ESTALE
    · rw [if_pos ⟨ha, rfl⟩] at h
      cases hh : sendWithStaleRetry err false rest with
      | none => rw [hh] at h; exact absurd h (by simp)
      | some p =>
        obtain ⟨r', n'⟩ := p
        rw [hh] at h
        simp only [Option.some.injEq, Prod.mk.injEq] at h
        obtain ⟨hr, hn⟩ := h
        subst hr; subst hn
        obtain ⟨h1, h2, h3⟩ := ih r' n' hh
        refine ⟨h1, by simpa using h2, ?_⟩
        intro j hj
        cases j with
        | zero => exact ⟨a, by simp, ha⟩
        | succ j' =>
          obtain ⟨rj, hrj, hrje⟩ := h3 j' (by omega)
          exact ⟨rj, by simpa using hrj, hrje⟩
    · rw [if_neg (by simp [ha])] at h
      simp only [Option.some.injEq, Prod.mk.injEq] at h
      obtain ⟨hr, hn⟩ := h
      subst hr; subst hn
      exact ⟨ha, by simp, by omega⟩

theorem staleRetry_suppressed {α : Type} (err : α → Int) (r : α) (rest : List α) :
    sendWithStaleRetry err true (r :: rest) = some (r, 0) := by
  unfold sendWithStaleRetry
  rw [if_neg (by simp)]

set_option maxHeartbeats 1600000 in
/-- Every errno a `pfsd_file_pwrite` call can assign: one of the local
argument/permission errors, or the error field of the response surfaced
by the staleness loop. -/
theorem pwrite_errno_cases (mpFlags : Nat) (file : pfsd_file) (bufNull : Bool)
    (len : Nat) (off : Int) (oracle : List WriteRsp) (res : PwriteRes)
    (h : pfsd_file_pwrite mpFlags file bufNull len off oracle = some res) :
    res.errnoOut = none ∨ res.errnoOut = some EINVAL ∨ res.errnoOut = some EROFS ∨
      res.errnoOut = some EFBIG ∨
      ∃ rsp n, sendWithStaleRetry WriteRsp.error
          (decide (file.f_flags &&& O_APPEND ≠ 0)) oracle = some (rsp, n) ∧
        res.errnoOut = some rsp.error := by
  simp only [pfsd_file_pwrite] at h
  split_ifs at h <;>
    first
      | (rw [Option.some_inj] at h; subst h; simp)
      | (cases hh : sendWithStaleRetry WriteRsp.error
            (decide (file.f_flags &&& O_APPEND ≠ 0)) oracle with
          | none => rw [hh] at h; exact absurd h (by simp)
          | some p =>
            obtain ⟨rsp, n⟩ := p
            rw [hh] at h
            dsimp only at h
            by_cases hss : rsp.w_len < 0
            · rw [if_pos hss] at h
              rw [Option.some_inj] at h; subst h
              exact Or.inr (Or.inr (Or.inr (Or.inr ⟨rsp, n, rfl, rfl⟩)))
            · rw [if_neg hss] at h
              rw [Option.some_inj] at h; subst h
              simp)

/-- C1: For every request except an `O_APPEND` write, a response with
`error == ESTALE` is never the one surfaced to the caller: the retry loop
consumes every leading `ESTALE` response (one `update_meta`/free/realloc
cycle each) and hands the handler the first non-stale response; for an
`O_APPEND` write (`suppress = true`, wired in `pfsd_file_pwrite` to
`f_flags & O_APPEND`) the very first response is handled as-is, and a
write on a non-append file can never set `errno` to `ESTALE`. -/
theorem C1_estale_retried_never_surfaced :
    (∀ {α : Type} (err : α → Int) (rs : List α) (r : α) (n : Nat),
        sendWithStaleRetry err false rs = some (r, n) →
        err r ≠ ESTALE ∧ rs[n]? = some r ∧
          ∀ j, j < n → ∃ rj, rs[j]? = some rj ∧ err rj = ESTALE)
    ∧ (∀ {α : Type} (err : α → Int) (r : α) (rest : List α),
        sendWithStaleRetry err true (r :: rest) = some (r, 0))
    ∧ (∀ (mpFlags : Nat) (file : pfsd_file) (len : Nat) (off : Int)
          (oracle : List WriteRsp) (res : PwriteRes),
        pfsd_file_pwrite mpFlags file false len off oracle = some res →
        file.f_flags &&& O_APPEND = 0 → res.errnoOut ≠ some ESTALE)
    ∧ (∀ (mpFlags : Nat) (file : pfsd_file) (len : Nat) (off : Int)
          (r : WriteRsp) (rest : List WriteRsp) (res : PwriteRes),
        pfsd_writable mpFlags = true → 0 < len → len ≤ PFSD_MAX_IOSIZE →
        file.f_flags &&& O_APPEND ≠ 0 →
        pfsd_file_pwrite mpFlags file false len off (r :: rest) = some res →
        res.rsps = rest ∧ res.reqs.length = 1) := by
  refine ⟨fun err rs r n h => staleRetry_surfaced err rs r n h,
          fun err r rest => staleRetry_suppressed err r rest, ?_, ?_⟩
  · intro mpFlags file len off oracle res h happ
    rcases pwrite_errno_cases mpFlags file false len off oracle res h with
      h0 | h0 | h0 | h0 | ⟨rsp, n, hh, h0⟩
    · simp [h0]
    · simp [h0, EINVAL, ESTALE]
    · simp [h0, EROFS, ESTALE]
    · simp [h0, EFBIG, ESTALE]
    · have hsup : decide (file.f_flags &&& O_APPEND ≠ 0) = false := by
        simp [happ]
      rw [hsup] at hh
      have hne := (staleRetry_surfaced WriteRsp.error oracle rsp n hh).1
      simp [h0, hne]
  · intro mpFlags file len off r rest res hw hl hle happ h
    simp only [pfsd_file_pwrite] at h
    rw [if_neg (by simp)] at h
    rw [if_neg (by simp [hw])] at h
    rw [if_neg (by omega)] at h
    rw [if_neg (by omega)] at h
    rw [if_pos happ] at h
    rw [if_neg (by norm_num [OFFSET_FILE_SIZE])] at h
    have hsup : decide (file.f_flags &&& O_APPEND ≠ 0) = true := by
      simpa using happ
    rw [hsup, staleRetry_suppressed WriteRsp.error r rest] at h
    dsimp only at h
    by_cases hss : r.w_len < 0
    · rw [if_pos hss] at h
      rw [Option.some_inj] at h; subst h
      simp
    · rw [if_neg hss] at h
      rw [Option.some_inj] at h; subst h
      simp

/-- Witness for C1: a concrete run whose first response is stale and is
retried away, a suppressed (`O_APPEND`) run handling the stale response
as-is, a non-append write whose errno is not `ESTALE`, and an append
write consuming exactly its first response. -/
theorem C1_estale_retried_never_surfaced_witness :
    ((WriteRsp.mk 0 3 7).error ≠ ESTALE ∧
      ([⟨ESTALE, 0, 0⟩, ⟨0, 3, 7⟩] : List WriteRsp)[1]? = some ⟨0, 3, 7⟩ ∧
      ∀ j, j < 1 → ∃ rj, ([⟨ESTALE, 0, 0⟩, ⟨0, 3, 7⟩] : List WriteRsp)[j]? = some rj ∧
        rj.error = ESTALE)
    ∧ sendWithStaleRetry WriteRsp.error true [(⟨ESTALE, 0, 0⟩ : WriteRsp)] =
        some (⟨ESTALE, 0, 0⟩, 0)
    ∧ (PwriteRes.mk 2 none ⟨3, 7, 0, 7, 1, some 0, 0⟩ [⟨7, 2, 5, 0⟩] []).errnoOut ≠
        some ESTALE
    ∧ ((PwriteRes.mk 1 none ⟨3, 7, 1024, 5, 1, some 0, 0⟩ [⟨7, 1, -2, 1024⟩] []).rsps = [] ∧
       (PwriteRes.mk 1 none ⟨3, 7, 1024, 5, 1, some 0, 0⟩ [⟨7, 1, -2, 1024⟩] []).reqs.length = 1) :=
  ⟨C1_estale_retried_never_surfaced.1 WriteRsp.error [⟨ESTALE, 0, 0⟩, ⟨0, 3, 7⟩]
      ⟨0, 3, 7⟩ 1 (by decide),
   C1_estale_retried_never_surfaced.2.1 WriteRsp.error ⟨ESTALE, 0, 0⟩ [],
   C1_estale_retried_never_surfaced.2.2.1 3 ⟨3, 7, 0, 7, 1, some 0, 0⟩ 2 5 [⟨0, 2, 5⟩]
      (PwriteRes.mk 2 none ⟨3, 7, 0, 7, 1, some 0, 0⟩ [⟨7, 2, 5, 0⟩] []) (by decide) (by decide),
   C1_estale_retried_never_surfaced.2.2.2 3 ⟨3, 7, 1024, 5, 1, some 0, 0⟩ 1 0
      ⟨ESTALE, 1, 9⟩ []
      (PwriteRes.mk 1 none ⟨3, 7, 1024, 5, 1, some 0, 0⟩ [⟨7, 1, -2, 1024⟩] [])
      (by decide) (by decide) (by decide) (by decide) (by decide)⟩

/-- C7: the read/write size policies of `pfsd_file_pwrite`,
`pfsd_file_pread` and `pfsd_pwrite`: a per-request write longer than
`IOSIZE_MAX` fails with `EFBIG` before any request is sent; an over-long
read is transparently shortened to `IOSIZE_MAX`; a zero-length write
returns 0 immediately without contacting the daemon; a write on a
non-writable mount fails with `EROFS`; a `pwrite` with a negative offset
fails with `EINVAL`. -/
theorem C7_io_size_policies :
    (∀ (mpFlags : Nat) (file : pfsd_file) (len : Nat) (off : Int)
        (oracle : List WriteRsp),
      pfsd_writable mpFlags = true → PFSD_MAX_IOSIZE < len →
      pfsd_file_pwrite mpFlags file false len off oracle =
        some ⟨-1, some EFBIG, file, [], oracle⟩)
    ∧ (∀ (file : pfsd_file) (len : Nat) (off : Int) (oracle : List ReadRsp)
          (ret : Int) (eo : Option Int) (reqs : List ReadReq) (rest : List ReadRsp),
      PFSD_MAX_IOSIZE < len → 0 ≤ off →
      pfsd_file_pread file false len off oracle = some (ret, eo, reqs, rest) →
      ∀ r ∈ reqs, r.r_len = PFSD_MAX_IOSIZE)
    ∧ (∀ (mpFlags : Nat) (file : pfsd_file) (off : Int) (oracle : List WriteRsp),
      pfsd_writable mpFlags = true →
      pfsd_file_pwrite mpFlags file false 0 off oracle = some ⟨0, none, file, [], oracle⟩)
    ∧ (∀ (mpFlags : Nat) (file : pfsd_file) (len : Nat) (off : Int)
          (oracle : List WriteRsp),
      pfsd_writable mpFlags = false →
      pfsd_file_pwrite mpFlags file false len off oracle =
        some ⟨-1, some EROFS, file, [], oracle⟩)
    ∧ (∀ (mpFlags : Nat) (file : pfsd_file) (bufNull : Bool) (len : Nat)
          (off : Int) (oracle : List WriteRsp),
      off < 0 →
      pfsd_pwrite mpFlags file bufNull len off oracle =
        some (-1, some EINVAL, file, [], oracle)) := by
  refine ⟨?_, ?_, ?_, ?_, ?_⟩
  · intro mpFlags file len off oracle hw hbig
    simp only [pfsd_file_pwrite]
    rw [if_neg (by simp)]
    rw [if_neg (by simp [hw])]
    rw [if_neg (by omega)]
    rw [if_pos hbig]
  · intro file len off oracle ret eo reqs rest hbig hoff h
    simp only [pfsd_file_pread] at h
    rw [if_neg (by simp)] at h
    rw [if_pos hbig] at h
    rw [if_neg (by omega)] at h
    cases hh : sendWithStaleRetry ReadRsp.error false oracle with
    | none => rw [hh] at h; exact absurd h (by simp)
    | some p =>
      obtain ⟨rsp, n⟩ := p
      rw [hh] at h
      dsimp only at h
      by_cases hss : rsp.r_len < 0
      · rw [if_pos hss] at h
        simp only [Option.some_inj, Prod.mk.injEq] at h
        obtain ⟨-, -, hreqs, -⟩ := h
        subst hreqs
        intro r hr
        rw [List.eq_of_mem_replicate hr]
      · rw [if_neg hss] at h
        simp only [Option.some_inj, Prod.mk.injEq] at h
        obtain ⟨-, -, hreqs, -⟩ := h
        subst hreqs
        intro r hr
        rw [List.eq_of_mem_replicate hr]
  · intro mpFlags file off oracle hw
    simp only [pfsd_file_pwrite]
    rw [if_neg (by simp)]
    rw [if_neg (by simp [hw])]
    simp
  · intro mpFlags file len off oracle hw
    simp only [pfsd_file_pwrite]
    rw [if_neg (by simp)]
    rw [if_pos (by simp [hw])]
  · intro mpFlags file bufNull len off oracle hoff
    simp only [pfsd_pwrite]
    rw [if_pos hoff]

/-- Witness for C7: each size policy evaluated at a concrete call. -/
theorem C7_io_size_policies_witness :
    pfsd_file_pwrite 3 ⟨0, 7, 0, 0, 1, some 0, 0⟩ false 4194305 0 [] =
      some ⟨-1, some EFBIG, ⟨0, 7, 0, 0, 1, some 0, 0⟩, [], []⟩
    ∧ (∀ r ∈ ([⟨7, 4194304, 0⟩] : List ReadReq), r.r_len = PFSD_MAX_IOSIZE)
    ∧ pfsd_file_pwrite 3 ⟨0, 7, 0, 0, 1, some 0, 0⟩ false 0 0 [] =
        some ⟨0, none, ⟨0, 7, 0, 0, 1, some 0, 0⟩, [], []⟩
    ∧ pfsd_file_pwrite 1 ⟨0, 7, 0, 0, 1, some 0, 0⟩ false 5 0 [] =
        some ⟨-1, some EROFS, ⟨0, 7, 0, 0, 1, some 0, 0⟩, [], []⟩
    ∧ pfsd_pwrite 3 ⟨0, 7, 0, 0, 1, some 0, 0⟩ false 5 (-1) [] =
        some (-1, some EINVAL, ⟨0, 7, 0, 0, 1, some 0, 0⟩, [], []) :=
  ⟨C7_io_size_policies.1 3 ⟨0, 7, 0, 0, 1, some 0, 0⟩ 4194305 0 [] (by decide) (by decide),
   C7_io_size_policies.2.1 ⟨0, 7, 0, 0, 1, some 0, 0⟩ 4194305 0 [⟨0, 5⟩] 5 none
     [⟨7, 4194304, 0⟩] [] (by decide) (by decide) (by decide),
   C7_io_size_policies.2.2.1 3 ⟨0, 7, 0, 0, 1, some 0, 0⟩ 0 [] (by decide),
   C7_io_size_policies.2.2.2.1 1 ⟨0, 7, 0, 0, 1, some 0, 0⟩ 5 0 [] (by decide),
   C7_io_size_policies.2.2.2.2 3 ⟨0, 7, 0, 0, 1, some 0, 0⟩ false 5 (-1) [] (by decide)⟩

set_option maxHeartbeats 1600000 in
/-- `pfsd_file_pwrite` mutates only `f_offset`, and on an `O_APPEND` file
every request it sends carries the `OFFSET_FILE_SIZE` sentinel. -/
theorem pwrite_shape (mpFlags : Nat) (file : pfsd_file) (bufNull : Bool)
    (len : Nat) (off : Int) (oracle : List WriteRsp) (res : PwriteRes)
    (h : pfsd_file_pwrite mpFlags file bufNull len off oracle = some res) :
    (∃ noff, res.file = { file with f_offset := noff }) ∧
      (file.f_flags &&& O_APPEND ≠ 0 → ∀ r ∈ res.reqs, r.w_off = OFFSET_FILE_SIZE) := by
  simp only [pfsd_file_pwrite] at h
  split_ifs at h <;>
    first
      | (rw [Option.some_inj] at h; subst h;
         refine ⟨⟨file.f_offset, rfl⟩, fun happ r hr => ?_⟩;
         exact absurd hr (List.not_mem_nil r))
      | (cases hh : sendWithStaleRetry WriteRsp.error
            (decide (file.f_flags &&& O_APPEND ≠ 0)) oracle with
          | none => rw [hh] at h; exact absurd h (by simp)
          | some p =>
            obtain ⟨rsp, n⟩ := p
            rw [hh] at h
            dsimp only at h
            by_cases hss : rsp.w_len < 0
            · rw [if_pos hss] at h
              rw [Option.some_inj] at h; subst h
              refine ⟨⟨file.f_offset, rfl⟩, fun happ r hr => ?_⟩
              first
                | exact absurd happ ‹¬(file.f_flags &&& O_APPEND ≠ 0)›
                | (simp only [List.eq_of_mem_replicate hr])
            · rw [if_neg hss] at h
              rw [Option.some_inj] at h; subst h
              refine ⟨⟨_, rfl⟩, fun happ r hr => ?_⟩
              first
                | exact absurd happ ‹¬(file.f_flags &&& O_APPEND ≠ 0)›
                | (simp only [List.eq_of_mem_replicate hr]))

/-- Through the whole chunking loop on an `O_APPEND` file, every request
sent carries the `OFFSET_FILE_SIZE` sentinel (the per-call update never
touches `f_flags`). -/
theorem pwrite_loop_sentinel (mpFlags : Nat) (bufNull : Bool) (offArg : Nat → Int) :
    ∀ (fuel : Nat) (file : pfsd_file) (len total : Nat) (oracle : List WriteRsp)
      (reqs0 : List WriteReq) (ret : Int) (eo : Option Int) (f' : pfsd_file)
      (reqs : List WriteReq) (rest : List WriteRsp),
      file.f_flags &&& O_APPEND ≠ 0 →
      (∀ r ∈ reqs0, r.w_off = OFFSET_FILE_SIZE) →
      pwrite_loop mpFlags bufNull offArg fuel file len total oracle reqs0 =
        some (ret, eo, f', reqs, rest) →
      ∀ r ∈ reqs, r.w_off = OFFSET_FILE_SIZE := by
  intro fuel
  induction fuel with
  | zero =>
    intro file len total oracle reqs0 ret eo f' reqs rest _ _ h
    exact absurd h (by simp [pwrite_loop])
  | succ fuel ih =>
    intro file len total oracle reqs0 ret eo f' reqs rest happ h0 h
    simp only [pwrite_loop] at h
    by_cases hlen : len = 0
    · rw [if_pos hlen] at h
      rw [Option.some_inj] at h
      simp only [Prod.mk.injEq] at h
      obtain ⟨-, -, -, h4, -⟩ := h
      subst h4
      exact h0
    · rw [if_neg hlen] at h
      cases hpw : pfsd_file_pwrite mpFlags file bufNull (min len PFSD_MAX_IOSIZE)
          (offArg total) oracle with
      | none => rw [hpw] at h; exact absurd h (by simp)
      | some res =>
        rw [hpw] at h
        dsimp only at h
        obtain ⟨⟨noff, hrf⟩, hsent⟩ := pwrite_shape _ _ _ _ _ _ _ hpw
        have happ' : res.file.f_flags &&& O_APPEND ≠ 0 := by rw [hrf]; exact happ
        have h0' : ∀ r ∈ reqs0 ++ res.reqs, r.w_off = OFFSET_FILE_SIZE := by
          intro r hr
          rcases List.mem_append.mp hr with h1 | h1
          · exact h0 r h1
          · exact hsent happ r h1
        by_cases hret : 0 < res.ret
        · rw [if_pos hret] at h
          exact ih res.file _ _ _ _ ret eo f' reqs rest happ' h0' h
        · rw [if_neg hret] at h
          rw [Option.some_inj] at h
          simp only [Prod.mk.injEq] at h
          obtain ⟨-, -, -, h4, -⟩ := h
          subst h4
          exact h0'

/-- One full-length chunk: when the single `pfsd_file_pwrite` call
transfers all `len` bytes, the loop stops after it with `total = len`. -/
theorem pwrite_loop_single (mpFlags : Nat) (offArg : Nat → Int) (file : pfsd_file)
    (len : Nat) (oracle : List WriteRsp) (res : PwriteRes) (fuel : Nat)
    (hl : 0 < len) (hle : len ≤ PFSD_MAX_IOSIZE)
    (hres : pfsd_file_pwrite mpFlags file false len (offArg 0) oracle = some res)
    (hret : res.ret = (len : Int)) :
    pwrite_loop mpFlags false offArg (fuel + 2) file len 0 oracle [] =
      some ((len : Int), none, res.file, res.reqs, res.rsps) := by
  have hmin : min len PFSD_MAX_IOSIZE = len := Nat.min_eq_left hle
  have h1 : pwrite_loop mpFlags false offArg (fuel + 2) file len 0 oracle [] =
      pwrite_loop mpFlags false offArg (fuel + 1) res.file
        (((len + 2 ^ 64) - res.ret.toNat % 2 ^ 64) % 2 ^ 64) (0 + res.ret.toNat)
        res.rsps ([] ++ res.reqs) := by
    simp only [pwrite_loop]
    rw [if_neg (by omega), hmin, hres]
    dsimp only
    rw [if_pos (by rw [hret]; exact_mod_cast hl)]
  rw [h1, hret]
  have hlt : len < 2 ^ 64 := by
    have : PFSD_MAX_IOSIZE < 2 ^ 64 := by norm_num [PFSD_MAX_IOSIZE]
    omega
  have hlz : ((len + 2 ^ 64) - ((len : Int)).toNat % 2 ^ 64) % 2 ^ 64 = 0 := by
    rw [Int.toNat_natCast, Nat.mod_eq_of_lt hlt]
    omega
  rw [hlz]
  simp only [pwrite_loop]
  simp [Int.toNat_natCast]

theorem lastAppendSingleton {α : Type} (a : α) : ∀ l : List α, (l ++ [a]).getLast? = some a := by
  intro l
  induction l with
  | nil => rfl
  | cons x xs ih =>
    cases xs with
    | nil => rfl
    | cons y ys =>
      simp only [List.cons_append] at ih ⊢
      rw [List.getLast?_cons_cons]
      exact ih

/-- C2 counterexample: `pwrite` on an `O_APPEND` file does NOT store the
daemon-returned file size into the local offset.  File with
`f_offset = 5`, `pwrite` of 3 bytes at offset 0, daemon reply
`w_file_size = 100`: the resulting `f_offset` is still 5, not 100 (the
store `f_offset = w_rsp.w_file_size` is guarded by `off == OFFSET_FILE_POS`,
which only the `write` path passes). -/
theorem C2_pwrite_offset_not_stored :
    (pfsd_pwrite 3 ⟨3, 7, 1024, 5, 1, some 0, 0⟩ false 3 0 [⟨0, 3, 100⟩]).map
        (fun out => out.2.2.1.f_offset) = some 5
    ∧ (5 : Int) ≠ (100 : Int) := by decide

/-- C2 (amended): for `O_APPEND` files, `write` and `pwrite` both send
only `OFFSET_FILE_SIZE`-sentinel offsets and hold `f_lseek_lock` across
the whole operation (`write` holds it for any flags); the daemon-returned
file size is stored into `f_offset` by `write`, while `pwrite` leaves
`f_offset` unchanged. -/
theorem C2_append_write_protocol :
    (∀ (mpFlags : Nat) (file : pfsd_file) (bufNull : Bool) (len : Nat) (off : Int)
        (oracle : List WriteRsp) (ret : Int) (eo : Option Int) (f' : pfsd_file)
        (acts : List Act) (rest : List WriteRsp),
      file.f_flags &&& O_APPEND ≠ 0 → 0 ≤ off →
      pfsd_pwrite mpFlags file bufNull len off oracle = some (ret, eo, f', acts, rest) →
      acts.head? = some Act.lockLseek ∧ acts.getLast? = some Act.unlockLseek ∧
        ∀ w, Act.sendW w ∈ acts → w.w_off = OFFSET_FILE_SIZE)
    ∧ (∀ (mpFlags : Nat) (file : pfsd_file) (bufNull : Bool) (len : Nat)
          (oracle : List WriteRsp) (ret : Int) (eo : Option Int) (f' : pfsd_file)
          (acts : List Act) (rest : List WriteRsp),
      pfsd_write mpFlags file bufNull len oracle = some (ret, eo, f', acts, rest) →
      acts.head? = some Act.lockLseek ∧ acts.getLast? = some Act.unlockLseek ∧
        (file.f_flags &&& O_APPEND ≠ 0 →
          ∀ w, Act.sendW w ∈ acts → w.w_off = OFFSET_FILE_SIZE))
    ∧ (∀ (mpFlags : Nat) (file : pfsd_file) (len : Nat) (fs : Int),
      pfsd_writable mpFlags = true → file.f_flags &&& O_APPEND ≠ 0 →
      0 < len → len ≤ PFSD_MAX_IOSIZE →
      pfsd_write mpFlags file false len [⟨0, (len : Int), fs⟩] =
        some ((len : Int), none, { file with f_offset := fs },
          [Act.lockLseek, Act.sendW ⟨file.f_inode, len, OFFSET_FILE_SIZE, file.f_flags⟩,
           Act.unlockLseek], []))
    ∧ (∀ (mpFlags : Nat) (file : pfsd_file) (len : Nat) (off : Int) (fs : Int),
      pfsd_writable mpFlags = true → file.f_flags &&& O_APPEND ≠ 0 →
      0 < len → len ≤ PFSD_MAX_IOSIZE → 0 ≤ off →
      pfsd_pwrite mpFlags file false len off [⟨0, (len : Int), fs⟩] =
        some ((len : Int), none, file,
          [Act.lockLseek, Act.sendW ⟨file.f_inode, len, OFFSET_FILE_SIZE, file.f_flags⟩,
           Act.unlockLseek], [])) := by
  refine ⟨?_, ?_, ?_, ?_⟩
  · intro mpFlags file bufNull len off oracle ret eo f' acts rest happ hoff h
    simp only [pfsd_pwrite] at h
    rw [if_neg (by omega)] at h
    cases hlp : pwrite_loop mpFlags bufNull (fun total => off + total)
        (oracle.length + 1) file len 0 oracle [] with
    | none => rw [hlp] at h; exact absurd h (by simp)
    | some q =>
      obtain ⟨ret', eo', f'', reqs', rest'⟩ := q
      rw [hlp] at h
      dsimp only at h
      rw [if_pos happ, if_pos happ] at h
      rw [Option.some_inj] at h
      simp only [Prod.mk.injEq] at h
      obtain ⟨-, -, -, h4, -⟩ := h
      subst h4
      refine ⟨by simp, ?_, ?_⟩
      · rw [show ([Act.lockLseek] ++ List.map Act.sendW reqs' ++ [Act.unlockLseek] : List Act)
            = ([Act.lockLseek] ++ List.map Act.sendW reqs') ++ [Act.unlockLseek] from rfl]
        exact lastAppendSingleton _ _
      · intro w hw
        simp only [List.append_assoc, List.mem_append, List.mem_cons, List.mem_map,
          List.not_mem_nil, or_false] at hw
        rcases hw with h | ⟨⟨r, hr, hre⟩ | h⟩
        · exact absurd h (by simp)
        · have : r = w := by injection hre
          subst this
          exact pwrite_loop_sentinel mpFlags bufNull _ _ file len 0 oracle [] ret' eo'
            f'' reqs' rest' happ (by simp) hlp r hr
        · exact absurd h (by simp)
  · intro mpFlags file bufNull len oracle ret eo f' acts rest h
    simp only [pfsd_write] at h
    cases hlp : pwrite_loop mpFlags bufNull (fun _ => OFFSET_FILE_POS)
        (oracle.length + 1) file len 0 oracle [] with
    | none => rw [hlp] at h; exact absurd h (by simp)
    | some q =>
      obtain ⟨ret', eo', f'', reqs', rest'⟩ := q
      rw [hlp] at h
      dsimp only at h
      rw [Option.some_inj] at h
      simp only [Prod.mk.injEq] at h
      obtain ⟨-, -, -, h4, -⟩ := h
      subst h4
      refine ⟨by simp, ?_, ?_⟩
      · rw [show ([Act.lockLseek] ++ List.map Act.sendW reqs' ++ [Act.unlockLseek] : List Act)
            = ([Act.lockLseek] ++ List.map Act.sendW reqs') ++ [Act.unlockLseek] from rfl]
        exact lastAppendSingleton _ _
      · intro happ w hw
        simp only [List.append_assoc, List.mem_append, List.mem_cons, List.mem_map,
          List.not_mem_nil, or_false] at hw
        rcases hw with h | ⟨⟨r, hr, hre⟩ | h⟩
        · exact absurd h (by simp)
        · have : r = w := by injection hre
          subst this
          exact pwrite_loop_sentinel mpFlags bufNull _ _ file len 0 oracle [] ret' eo'
            f'' reqs' rest' happ (by simp) hlp r hr
        · exact absurd h (by simp)
  · intro mpFlags file len fs hw happ hl hle
    have hres : pfsd_file_pwrite mpFlags file false len OFFSET_FILE_POS
        [⟨0, (len : Int), fs⟩] =
        some ⟨(len : Int), none, { file with f_offset := fs },
          [⟨file.f_inode, len, OFFSET_FILE_SIZE, file.f_flags⟩], []⟩ := by
      simp only [pfsd_file_pwrite]
      rw [if_neg (by simp)]
      rw [if_neg (by simp [hw])]
      rw [if_neg (by omega)]
      rw [if_neg (by omega)]
      rw [if_pos happ]
      rw [if_neg (by norm_num [OFFSET_FILE_SIZE])]
      rw [show decide (file.f_flags &&& O_APPEND ≠ 0) = true from by simpa using happ]
      rw [staleRetry_suppressed]
      dsimp only
      rw [if_neg (by omega)]
      rw [if_pos ⟨happ, trivial⟩]
      simp
    have hloop := pwrite_loop_single mpFlags (fun _ => OFFSET_FILE_POS) file len
      [⟨0, (len : Int), fs⟩] _ 0 hl hle hres rfl
    simp only [pfsd_write]
    rw [show ([(⟨0, (len : Int), fs⟩ : WriteRsp)] : List WriteRsp).length + 1 = 0 + 2 from rfl]
    rw [hloop]
    dsimp only
    simp
  · intro mpFlags file len off fs hw happ hl hle hoff
    have hres : pfsd_file_pwrite mpFlags file false len (off + (0 : Nat))
        [⟨0, (len : Int), fs⟩] =
        some ⟨(len : Int), none, { file with f_offset := file.f_offset },
          [⟨file.f_inode, len, OFFSET_FILE_SIZE, file.f_flags⟩], []⟩ := by
      simp only [pfsd_file_pwrite]
      rw [if_neg (by simp)]
      rw [if_neg (by simp [hw])]
      rw [if_neg (by omega)]
      rw [if_neg (by omega)]
      rw [if_pos happ]
      rw [if_neg (by norm_num [OFFSET_FILE_SIZE])]
      rw [show decide (file.f_flags &&& O_APPEND ≠ 0) = true from by simpa using happ]
      rw [staleRetry_suppressed]
      dsimp only
      rw [if_neg (by omega)]
      rw [if_neg (by rintro ⟨-, hc⟩; rw [OFFSET_FILE_POS] at hc; omega)]
      rw [if_neg (by rintro ⟨-, hc⟩; omega)]
      simp
    have hloop := pwrite_loop_single mpFlags (fun total => off + total) file len
      [⟨0, (len : Int), fs⟩] _ 0 hl hle hres rfl
    simp only [pfsd_pwrite]
    rw [if_neg (by omega)]
    rw [show ([(⟨0, (len : Int), fs⟩ : WriteRsp)] : List WriteRsp).length + 1 = 0 + 2 from rfl]
    rw [hloop]
    dsimp only
    rw [if_pos happ, if_pos happ]
    simp

/-- Witness for C2: a 3-byte append `pwrite` and `write` on a file with
`f_offset = 5`, the daemon replying `w_file_size = 100`. -/
theorem C2_append_write_protocol_witness :
    (([Act.lockLseek, Act.sendW ⟨7, 3, -2, 1024⟩, Act.unlockLseek] : List Act).head? =
        some Act.lockLseek ∧
      ([Act.lockLseek, Act.sendW ⟨7, 3, -2, 1024⟩, Act.unlockLseek] : List Act).getLast? =
        some Act.unlockLseek ∧
      ∀ w, Act.sendW w ∈
          ([Act.lockLseek, Act.sendW ⟨7, 3, -2, 1024⟩, Act.unlockLseek] : List Act) →
        w.w_off = OFFSET_FILE_SIZE)
    ∧ (([Act.lockLseek, Act.sendW ⟨7, 3, -2, 1024⟩, Act.unlockLseek] : List Act).head? =
        some Act.lockLseek ∧
      ([Act.lockLseek, Act.sendW ⟨7, 3, -2, 1024⟩, Act.unlockLseek] : List Act).getLast? =
        some Act.unlockLseek ∧
      ((1024 : Nat) &&& O_APPEND ≠ 0 →
        ∀ w, Act.sendW w ∈
            ([Act.lockLseek, Act.sendW ⟨7, 3, -2, 1024⟩, Act.unlockLseek] : List Act) →
          w.w_off = OFFSET_FILE_SIZE))
    ∧ pfsd_write 3 ⟨3, 7, 1024, 5, 1, some 0, 0⟩ false 3 [⟨0, 3, 100⟩] =
        some (3, none, ⟨3, 7, 1024, 100, 1, some 0, 0⟩,
          [Act.lockLseek, Act.sendW ⟨7, 3, -2, 1024⟩, Act.unlockLseek], [])
    ∧ pfsd_pwrite 3 ⟨3, 7, 1024, 5, 1, some 0, 0⟩ false 3 0 [⟨0, 3, 100⟩] =
        some (3, none, ⟨3, 7, 1024, 5, 1, some 0, 0⟩,
          [Act.lockLseek, Act.sendW ⟨7, 3, -2, 1024⟩, Act.unlockLseek], []) :=
  ⟨C2_append_write_protocol.1 3 ⟨3, 7, 1024, 5, 1, some 0, 0⟩ false 3 0 [⟨0, 3, 100⟩]
      3 none ⟨3, 7, 1024, 5, 1, some 0, 0⟩
      [Act.lockLseek, Act.sendW ⟨7, 3, -2, 1024⟩, Act.unlockLseek] []
      (by decide) (by decide) (by rfl),
   C2_append_write_protocol.2.1 3 ⟨3, 7, 1024, 5, 1, some 0, 0⟩ false 3 [⟨0, 3, 100⟩]
      3 none ⟨3, 7, 1024, 100, 1, some 0, 0⟩
      [Act.lockLseek, Act.sendW ⟨7, 3, -2, 1024⟩, Act.unlockLseek] [] (by rfl),
   C2_append_write_protocol.2.2.1 3 ⟨3, 7, 1024, 5, 1, some 0, 0⟩ 3 100
      (by decide) (by decide) (by decide) (by decide),
   C2_append_write_protocol.2.2.2 3 ⟨3, 7, 1024, 5, 1, some 0, 0⟩ 3 0 100
      (by decide) (by decide) (by decide) (by decide) (by decide)⟩

/-- When the local step already settled the call (success, or failure
with a nonzero errno), `pfsd_file_lseek` finishes without contacting the
daemon. -/
theorem lseek_finish (file : pfsd_file) (offset : Int) (whence : Nat)
    (oracle : List LseekRsp) (rv : Int) (eo : Option Int) (f1 : pfsd_file)
    (hl : local_file_lseek file offset whence = (rv, eo, f1))
    (hfin : 0 ≤ rv ∨ (rv = -1 ∧ eo ≠ some 0)) :
    pfsd_file_lseek file offset whence oracle = some (rv, eo, f1, [], oracle) := by
  simp only [pfsd_file_lseek, hl]
  rcases hfin with h | h
  · rw [if_pos h]
  · obtain ⟨h1, h2⟩ := h
    subst h1
    rw [if_neg (by omega), if_pos ⟨rfl, h2⟩]

/-- C9: `lseek` semantics.  `SEEK_SET`/`SEEK_CUR` are resolved locally
without any daemon request; a wrapping `SEEK_CUR` yields `EOVERFLOW` with
the position unchanged; a negative resulting offset (in particular
`SEEK_SET` to a negative offset) yields `EINVAL` with the position
unchanged; on success the position is updated; `SEEK_END` is delegated
via an `LSEEK` request and the daemon's offset becomes the position. -/
theorem C9_lseek_local_and_delegated :
    (∀ (file : pfsd_file) (offset : Int) (whence : Nat) (oracle : List LseekRsp),
      whence = SEEK_SET ∨ whence = SEEK_CUR →
      ∃ rv eo f1, pfsd_file_lseek file offset whence oracle = some (rv, eo, f1, [], oracle))
    ∧ (∀ (file : pfsd_file) (offset : Int) (oracle : List LseekRsp),
      0 ≤ file.f_offset → file.f_offset < 2 ^ 63 → 0 < offset → offset < 2 ^ 63 →
      2 ^ 63 ≤ file.f_offset + offset →
      pfsd_file_lseek file offset SEEK_CUR oracle =
        some (-1, some EOVERFLOW, file, [], oracle))
    ∧ (∀ (file : pfsd_file) (offset : Int) (oracle : List LseekRsp),
      offset < 0 →
      pfsd_file_lseek file offset SEEK_SET oracle =
        some (-1, some EINVAL, file, [], oracle))
    ∧ (∀ (file : pfsd_file) (offset : Int) (oracle : List LseekRsp),
      0 ≤ file.f_offset → offset < 0 → -2 ^ 63 ≤ file.f_offset + offset →
      file.f_offset + offset < 0 →
      pfsd_file_lseek file offset SEEK_CUR oracle =
        some (-1, some EINVAL, file, [], oracle))
    ∧ (∀ (file : pfsd_file) (offset : Int) (oracle : List LseekRsp),
      0 ≤ offset →
      pfsd_file_lseek file offset SEEK_SET oracle =
        some (offset, none, { file with f_offset := offset }, [], oracle))
    ∧ (∀ (file : pfsd_file) (offset : Int) (oracle : List LseekRsp),
      0 ≤ file.f_offset → file.f_offset < 2 ^ 63 → -2 ^ 63 ≤ offset → offset < 2 ^ 63 →
      0 ≤ file.f_offset + offset → file.f_offset + offset < 2 ^ 63 →
      pfsd_file_lseek file offset SEEK_CUR oracle =
        some (file.f_offset + offset, none,
          { file with f_offset := file.f_offset + offset }, [], oracle))
    ∧ (∀ (file : pfsd_file) (offset : Int) (r : LseekRsp) (rest : List LseekRsp),
      r.error ≠ ESTALE → 0 ≤ r.l_offset →
      pfsd_file_lseek file offset SEEK_END (r :: rest) =
        some (r.l_offset, none, { file with f_offset := r.l_offset },
          [⟨file.f_inode, offset, SEEK_END⟩], rest)) := by
  have hset_neg : ∀ (file : pfsd_file) (offset : Int), offset < 0 →
      local_file_lseek file offset SEEK_SET = (-1, some EINVAL, file) := by
    intro file offset h
    simp only [local_file_lseek]
    rw [if_pos trivial, if_pos h]
  have hset_pos : ∀ (file : pfsd_file) (offset : Int), 0 ≤ offset →
      local_file_lseek file offset SEEK_SET =
        (offset, none, { file with f_offset := offset }) := by
    intro file offset h
    simp only [local_file_lseek]
    rw [if_pos trivial, if_neg (by omega)]
  have hcur_wrap : ∀ (file : pfsd_file) (offset : Int),
      0 ≤ file.f_offset → file.f_offset < 2 ^ 63 → 0 < offset → offset < 2 ^ 63 →
      2 ^ 63 ≤ file.f_offset + offset →
      local_file_lseek file offset SEEK_CUR = (-1, some EOVERFLOW, file) := by
    intro file offset h1 h2 h3 h4 h5
    have hiadd : iadd64 file.f_offset offset = file.f_offset + offset - 2 ^ 64 := by
      unfold iadd64; omega
    simp only [local_file_lseek]
    rw [if_neg (by decide), if_pos trivial, if_pos ⟨h3, by rw [hiadd]; omega⟩]
  have hcur_neg : ∀ (file : pfsd_file) (offset : Int),
      0 ≤ file.f_offset → offset < 0 → -2 ^ 63 ≤ file.f_offset + offset →
      file.f_offset + offset < 0 →
      local_file_lseek file offset SEEK_CUR = (-1, some EINVAL, file) := by
    intro file offset h1 h2 h3 h4
    have hiadd : iadd64 file.f_offset offset = file.f_offset + offset := by
      unfold iadd64; omega
    simp only [local_file_lseek]
    rw [if_neg (by decide), if_pos trivial]
    rw [if_neg (by rintro ⟨hc, -⟩; omega)]
    rw [if_neg (by rintro ⟨-, hc⟩; rw [hiadd] at hc; omega)]
    rw [if_pos (by rw [hiadd]; omega)]
  have hcur_ok : ∀ (file : pfsd_file) (offset : Int),
      0 ≤ file.f_offset → file.f_offset < 2 ^ 63 → -2 ^ 63 ≤ offset → offset < 2 ^ 63 →
      0 ≤ file.f_offset + offset → file.f_offset + offset < 2 ^ 63 →
      local_file_lseek file offset SEEK_CUR =
        (file.f_offset + offset, none,
          { file with f_offset := file.f_offset + offset }) := by
    intro file offset h1 h2 h3 h4 h5 h6
    have hiadd : iadd64 file.f_offset offset = file.f_offset + offset := by
      unfold iadd64; omega
    simp only [local_file_lseek]
    rw [if_neg (by decide), if_pos trivial]
    rw [if_neg (by rintro ⟨hc, hc2⟩; rw [hiadd] at hc2; omega)]
    rw [if_neg (by rintro ⟨hc, hc2⟩; rw [hiadd] at hc2; omega)]
    rw [if_neg (by rw [hiadd]; omega)]
    rw [hiadd]
  have hend : ∀ (file : pfsd_file) (offset : Int),
      local_file_lseek file offset SEEK_END = (-1, some 0, file) := by
    intro file offset
    simp only [local_file_lseek]
    rw [if_neg (by decide), if_neg (by decide), if_pos trivial]
  refine ⟨?_, ?_, ?_, ?_, ?_, ?_, ?_⟩
  · intro file offset whence oracle hwh
    rcases hwh with rfl | rfl
    · by_cases hno : offset < 0
      · exact ⟨-1, some EINVAL, file,
          lseek_finish _ _ _ _ _ _ _ (hset_neg file offset hno)
            (Or.inr ⟨rfl, by simp [EINVAL]⟩)⟩
      · exact ⟨offset, none, { file with f_offset := offset },
          lseek_finish _ _ _ _ _ _ _ (hset_pos file offset (by omega))
            (Or.inl (by omega))⟩
    · rcases hlo : local_file_lseek file offset SEEK_CUR with ⟨rv, eo, f1⟩
      have hcases : (0 ≤ rv) ∨ (rv = -1 ∧ (eo = some EOVERFLOW ∨ eo = some EINVAL)) := by
        revert hlo
        simp only [local_file_lseek]
        rw [if_neg (by decide), if_pos trivial]
        split_ifs with hc1 hc2 hc3 <;> intro hlo <;>
          simp only [Prod.mk.injEq] at hlo <;>
          obtain ⟨e1, e2, e3⟩ := hlo
        · exact Or.inr ⟨e1.symm, Or.inl e2.symm⟩
        · exact Or.inr ⟨e1.symm, Or.inl e2.symm⟩
        · exact Or.inr ⟨e1.symm, Or.inr e2.symm⟩
        · exact Or.inl (by omega)
      rcases hcases with h | ⟨h1, h2⟩
      · exact ⟨rv, eo, f1, lseek_finish _ _ _ _ _ _ _ hlo (Or.inl h)⟩
      · refine ⟨rv, eo, f1, lseek_finish _ _ _ _ _ _ _ hlo (Or.inr ⟨h1, ?_⟩)⟩
        rcases h2 with rfl | rfl <;> simp [EOVERFLOW, EINVAL]
  · intro file offset oracle h1 h2 h3 h4 h5
    exact lseek_finish _ _ _ _ _ _ _ (hcur_wrap file offset h1 h2 h3 h4 h5)
      (Or.inr ⟨rfl, by simp [EOVERFLOW]⟩)
  · intro file offset oracle h
    exact lseek_finish _ _ _ _ _ _ _ (hset_neg file offset h)
      (Or.inr ⟨rfl, by simp [EINVAL]⟩)
  · intro file offset oracle h1 h2 h3 h4
    exact lseek_finish _ _ _ _ _ _ _ (hcur_neg file offset h1 h2 h3 h4)
      (Or.inr ⟨rfl, by simp [EINVAL]⟩)
  · intro file offset oracle h
    exact lseek_finish _ _ _ _ _ _ _ (hset_pos file offset h) (Or.inl h)
  · intro file offset oracle h1 h2 h3 h4 h5 h6
    exact lseek_finish _ _ _ _ _ _ _ (hcur_ok file offset h1 h2 h3 h4 h5 h6)
      (Or.inl h5)
  · intro file offset r rest herr hge
    simp only [pfsd_file_lseek, hend file offset]
    rw [if_neg (by omega), if_neg (by rintro ⟨-, hc⟩; exact hc rfl)]
    have hsr : sendWithStaleRetry LseekRsp.error false (r :: rest) = some (r, 0) := by
      unfold sendWithStaleRetry
      rw [if_neg (by simp [herr])]
    rw [hsr]
    dsimp only
    rw [if_neg (by omega)]
    simp

/-- Witness for C9: concrete seeks — a local `SEEK_SET`, an overflowing
`SEEK_CUR`, `SEEK_SET` to `-1`, a negative-result `SEEK_CUR`, successful
`SEEK_SET`/`SEEK_CUR`, and a delegated `SEEK_END`. -/
theorem C9_lseek_local_and_delegated_witness :
    (∃ rv eo f1, pfsd_file_lseek ⟨3, 7, 0, 5, 1, some 0, 0⟩ 9 SEEK_SET [] =
        some (rv, eo, f1, [], []))
    ∧ pfsd_file_lseek ⟨3, 7, 0, 5, 1, some 0, 0⟩ (2 ^ 63 - 1) SEEK_CUR [] =
        some (-1, some EOVERFLOW, ⟨3, 7, 0, 5, 1, some 0, 0⟩, [], [])
    ∧ pfsd_file_lseek ⟨3, 7, 0, 5, 1, some 0, 0⟩ (-1) SEEK_SET [] =
        some (-1, some EINVAL, ⟨3, 7, 0, 5, 1, some 0, 0⟩, [], [])
    ∧ pfsd_file_lseek ⟨3, 7, 0, 5, 1, some 0, 0⟩ (-6) SEEK_CUR [] =
        some (-1, some EINVAL, ⟨3, 7, 0, 5, 1, some 0, 0⟩, [], [])
    ∧ pfsd_file_lseek ⟨3, 7, 0, 5, 1, some 0, 0⟩ 9 SEEK_SET [] =
        some (9, none, ⟨3, 7, 0, 9, 1, some 0, 0⟩, [], [])
    ∧ pfsd_file_lseek ⟨3, 7, 0, 5, 1, some 0, 0⟩ 4 SEEK_CUR [] =
        some (9, none, ⟨3, 7, 0, 9, 1, some 0, 0⟩, [], [])
    ∧ pfsd_file_lseek ⟨3, 7, 0, 5, 1, some 0, 0⟩ 0 SEEK_END [⟨0, 42⟩] =
        some (42, none, ⟨3, 7, 0, 42, 1, some 0, 0⟩, [⟨7, 0, SEEK_END⟩], []) :=
  ⟨C9_lseek_local_and_delegated.1 ⟨3, 7, 0, 5, 1, some 0, 0⟩ 9 SEEK_SET []
      (Or.inl rfl),
   C9_lseek_local_and_delegated.2.1 ⟨3, 7, 0, 5, 1, some 0, 0⟩ (2 ^ 63 - 1) []
      (by decide) (by decide) (by decide) (by decide) (by decide),
   C9_lseek_local_and_delegated.2.2.1 ⟨3, 7, 0, 5, 1, some 0, 0⟩ (-1) [] (by decide),
   C9_lseek_local_and_delegated.2.2.2.1 ⟨3, 7, 0, 5, 1, some 0, 0⟩ (-6) []
      (by decide) (by decide) (by decide) (by decide),
   C9_lseek_local_and_delegated.2.2.2.2.1 ⟨3, 7, 0, 5, 1, some 0, 0⟩ 9 [] (by decide),
   C9_lseek_local_and_delegated.2.2.2.2.2.1 ⟨3, 7, 0, 5, 1, some 0, 0⟩ 4 []
      (by decide) (by decide) (by decide) (by decide) (by decide) (by decide),
   C9_lseek_local_and_delegated.2.2.2.2.2.2 ⟨3, 7, 0, 5, 1, some 0, 0⟩ 0 ⟨0, 42⟩ []
      (by decide) (by decide)⟩

/-! ## Helper lemmas on path normalization -/

theorem normLoop_long :
    ∀ (ts : List (List Char)), (∃ t ∈ ts, PFS_MAX_NAMELEN ≤ t.length) →
      ∀ dirs, normLoop ts dirs = .error (-ENAMETOOLONG) := by
  intro ts
  induction ts with
  | nil => rintro ⟨t, ht, -⟩; exact absurd ht (List.not_mem_nil t)
  | cons name rest ih =>
    rintro ⟨t, ht, hlong⟩ dirs
    simp only [normLoop]
    by_cases h1 : PFS_MAX_NAMELEN ≤ name.length
    · rw [if_pos h1]
    · rw [if_neg h1]
      have hrest : ∃ t ∈ rest, PFS_MAX_NAMELEN ≤ t.length := by
        rcases List.mem_cons.mp ht with rfl | hm
        · exact absurd hlong h1
        · exact ⟨t, hm, hlong⟩
      by_cases h2 : name = ['.', '.']
      · rw [if_pos h2]; exact ih hrest _
      · rw [if_neg h2]
        by_cases h3 : name = ['.']
        · rw [if_pos h3]; exact ih hrest _
        · rw [if_neg h3]
          by_cases h4 : PFS_MAX_PATHLEN ≤ dirs.length
          · rw [if_pos h4]
          · rw [if_neg h4]; exact ih hrest _

theorem normLoop_head :
    ∀ (ts : List (List Char)) (dirs0 dirs : List (List Char)),
      normLoop ts dirs0 = .ok dirs → dirs0 ≠ [] →
      dirs ≠ [] ∧ dirs.head? = dirs0.head? := by
  intro ts
  induction ts with
  | nil =>
    intro dirs0 dirs h hne
    simp only [normLoop, Except.ok.injEq] at h
    subst h
    exact ⟨hne, rfl⟩
  | cons name rest ih =>
    intro dirs0 dirs h hne
    simp only [normLoop] at h
    by_cases h1 : PFS_MAX_NAMELEN ≤ name.length
    · rw [if_pos h1] at h; exact absurd h (by simp)
    · rw [if_neg h1] at h
      by_cases h2 : name = ['.', '.']
      · rw [if_pos h2] at h
        by_cases hl : 1 < dirs0.length
        · rw [if_pos hl] at h
          have hne' : dirs0.dropLast ≠ [] := by
            intro hx
            have := congrArg List.length hx
            simp [List.length_dropLast] at this
            omega
          obtain ⟨hd1, hd2⟩ := ih _ _ h hne'
          refine ⟨hd1, hd2.trans ?_⟩
          cases dirs0 with
          | nil => exact absurd rfl hne
          | cons a l =>
            cases l with
            | nil => simp at hl
            | cons b l' => simp [List.dropLast]
        · rw [if_neg hl] at h
          exact ih _ _ h hne
      · rw [if_neg h2] at h
        by_cases h3 : name = ['.']
        · rw [if_pos h3] at h; exact ih _ _ h hne
        · rw [if_neg h3] at h
          by_cases h4 : PFS_MAX_PATHLEN ≤ dirs0.length
          · rw [if_pos h4] at h; exact absurd h (by simp)
          · rw [if_neg h4] at h
            obtain ⟨hd1, hd2⟩ := ih _ _ h (by simp)
            refine ⟨hd1, hd2.trans ?_⟩
            cases dirs0 with
            | nil => exact absurd rfl hne
            | cons a l => simp

theorem normLoop_head_nil :
    ∀ (ts : List (List Char)) (dirs : List (List Char)),
      normLoop ts [] = .ok dirs →
      dirs.head? = (ts.filter realName).head? := by
  intro ts
  induction ts with
  | nil =>
    intro dirs h
    simp only [normLoop, Except.ok.injEq] at h
    subst h; rfl
  | cons name rest ih =>
    intro dirs h
    simp only [normLoop] at h
    by_cases h1 : PFS_MAX_NAMELEN ≤ name.length
    · rw [if_pos h1] at h; exact absurd h (by simp)
    · rw [if_neg h1] at h
      by_cases h2 : name = ['.', '.']
      · rw [if_pos h2] at h
        rw [if_neg (by simp)] at h
        rw [List.filter_cons, if_neg (by simp [realName, h2])]
        exact ih _ h
      · rw [if_neg h2] at h
        by_cases h3 : name = ['.']
        · rw [if_pos h3] at h
          rw [List.filter_cons, if_neg (by simp [realName, h3])]
          exact ih _ h
        · rw [if_neg h3] at h
          rw [if_neg (by simp [PFS_MAX_PATHLEN])] at h
          rw [List.filter_cons, if_pos (by simp [realName, h2, h3])]
          obtain ⟨-, hd⟩ := normLoop_head rest [name] dirs h (by simp)
          simpa using hd

theorem normLoop_mem :
    ∀ (ts : List (List Char)) (dirs0 dirs : List (List Char)),
      normLoop ts dirs0 = .ok dirs →
      ∀ d ∈ dirs, d ∈ dirs0 ∨
        (d ∈ ts ∧ d.length < PFS_MAX_NAMELEN ∧ realName d = true) := by
  intro ts
  induction ts with
  | nil =>
    intro dirs0 dirs h d hd
    simp only [normLoop, Except.ok.injEq] at h
    subst h
    exact Or.inl hd
  | cons name rest ih =>
    intro dirs0 dirs h d hd
    simp only [normLoop] at h
    by_cases h1 : PFS_MAX_NAMELEN ≤ name.length
    · rw [if_pos h1] at h; exact absurd h (by simp)
    · rw [if_neg h1] at h
      by_cases h2 : name = ['.', '.']
      · rw [if_pos h2] at h
        have hsub : ∀ x ∈ (if 1 < dirs0.length then dirs0.dropLast else dirs0),
            x ∈ dirs0 := by
          intro x hx
          split at hx
          · exact List.dropLast_subset _ hx
          · exact hx
        rcases ih _ _ h d hd with hm | hm
        · exact Or.inl (hsub d hm)
        · exact Or.inr ⟨List.mem_cons_of_mem _ hm.1, hm.2⟩
      · rw [if_neg h2] at h
        by_cases h3 : name = ['.']
        · rw [if_pos h3] at h
          rcases ih _ _ h d hd with hm | hm
          · exact Or.inl hm
          · exact Or.inr ⟨List.mem_cons_of_mem _ hm.1, hm.2⟩
        · rw [if_neg h3] at h
          by_cases h4 : PFS_MAX_PATHLEN ≤ dirs0.length
          · rw [if_pos h4] at h; exact absurd h (by simp)
          · rw [if_neg h4] at h
            rcases ih _ _ h d hd with hm | hm
            · rcases List.mem_append.mp hm with hm' | hm'
              · exact Or.inl hm'
              · have : d = name := by simpa using hm'
                subst this
                exact Or.inr ⟨List.mem_cons_self _ _, by omega,
                  by simp [realName, h2, h3]⟩
            · exact Or.inr ⟨List.mem_cons_of_mem _ hm.1, hm.2⟩

theorem splitSlash_no_slash :
    ∀ (path acc : List Char), '/' ∉ acc →
      ∀ t ∈ splitSlash path acc, '/' ∉ t := by
  intro path
  induction path with
  | nil =>
    intro acc hacc t ht
    simp only [splitSlash, List.mem_singleton] at ht
    subst ht
    intro h
    exact hacc (List.mem_reverse.mp h)
  | cons c rest ih =>
    intro acc hacc t ht
    simp only [splitSlash] at ht
    by_cases hc : c = '/'
    · rw [if_pos hc] at ht
      rcases List.mem_cons.mp ht with rfl | ht'
      · intro h
        exact hacc (List.mem_reverse.mp h)
      · exact ih [] (by simp) t ht'
    · rw [if_neg hc] at ht
      refine ih (c :: acc) ?_ t ht
      intro h
      rcases List.mem_cons.mp h with h' | h'
      · exact hc h'.symm
      · exact hacc h'

theorem tokenize_no_slash (path : List Char) :
    ∀ t ∈ tokenize path, t ≠ [] ∧ '/' ∉ t := by
  intro t ht
  rw [tokenize, List.mem_filter] at ht
  refine ⟨by simpa using ht.2, splitSlash_no_slash path [] (by simp) t ht.1⟩

theorem splitSlash_count_le :
    ∀ (path acc : List Char),
      ((splitSlash path acc).filter (fun t => t ≠ [])).length ≤
        path.length + (if acc = [] then 0 else 1) := by
  intro path
  induction path with
  | nil =>
    intro acc
    by_cases hacc : acc = []
    · subst hacc; simp [splitSlash]
    · simp only [splitSlash, if_neg hacc]
      have : (([acc.reverse] : List (List Char)).filter (fun t => t ≠ [])).length ≤ 1 := by
        simp [List.filter]
        split <;> simp
      simpa using this
  | cons c rest ih =>
    intro acc
    simp only [splitSlash, List.length_cons]
    by_cases hc : c = '/'
    · rw [if_pos hc]
      rw [List.filter_cons]
      have h2 : ((splitSlash rest []).filter (fun t => t ≠ [])).length ≤ rest.length := by
        simpa using ih []
      by_cases hr : acc.reverse = []
      · rw [if_neg (by simp [hr])]
        split <;> omega
      · rw [if_pos (by simp [hr])]
        simp only [List.length_cons]
        split <;> omega
    · rw [if_neg hc]
      have h2 := ih (c :: acc)
      rw [if_neg (by simp)] at h2
      split <;> omega

theorem tokenize_count_le (path : List Char) :
    (tokenize path).length ≤ path.length := by
  have := splitSlash_count_le path []
  rw [if_pos rfl] at this
  simpa [tokenize] using this

theorem normLoop_ok_of_short :
    ∀ (ts : List (List Char)) (dirs0 : List (List Char)),
      (∀ t ∈ ts, t.length < PFS_MAX_NAMELEN) →
      dirs0.length + ts.length ≤ PFS_MAX_PATHLEN →
      ∃ dirs, normLoop ts dirs0 = .ok dirs := by
  intro ts
  induction ts with
  | nil => intro dirs0 _ _; exact ⟨dirs0, rfl⟩
  | cons name rest ih =>
    intro dirs0 hshort hbound
    simp only [normLoop]
    rw [if_neg (by have := hshort name (List.mem_cons_self _ _); omega)]
    by_cases h2 : name = ['.', '.']
    · rw [if_pos h2]
      refine ih _ (fun t ht => hshort t (List.mem_cons_of_mem _ ht)) ?_
      have : (if 1 < dirs0.length then dirs0.dropLast else dirs0).length ≤ dirs0.length := by
        split
        · simp only [List.length_dropLast]; omega
        · exact le_refl _
      simp only [List.length_cons] at hbound
      omega
    · rw [if_neg h2]
      by_cases h3 : name = ['.']
      · rw [if_pos h3]
        refine ih _ (fun t ht => hshort t (List.mem_cons_of_mem _ ht)) ?_
        simp only [List.length_cons] at hbound
        omega
      · rw [if_neg h3]
        simp only [List.length_cons] at hbound
        rw [if_neg (by omega)]
        refine ih _ (fun t ht => hshort t (List.mem_cons_of_mem _ ht)) ?_
        simp only [List.length_append, List.length_singleton]
        omega

theorem normLoop_dots_only :
    ∀ (ts : List (List Char)), (∀ t ∈ ts, t = ['.'] ∨ t = ['.', '.']) →
      normLoop ts [] = .ok [] := by
  intro ts
  induction ts with
  | nil => intro _; rfl
  | cons name rest ih =>
    intro hdots
    simp only [normLoop]
    rcases hdots name (List.mem_cons_self _ _) with rfl | rfl
    · rw [if_neg (by norm_num [PFS_MAX_NAMELEN]), if_neg (by simp), if_pos rfl]
      exact ih (fun t ht => hdots t (List.mem_cons_of_mem _ ht))
    · rw [if_neg (by norm_num [PFS_MAX_NAMELEN]), if_pos rfl]
      rw [if_neg (by simp)]
      exact ih (fun t ht => hdots t (List.mem_cons_of_mem _ ht))

theorem rebuildPath_getLast (dirs : List (List Char)) (hne : dirs ≠ [])
    (hd : ∀ d ∈ dirs, d ≠ [] ∧ '/' ∉ d) :
    ((rebuildPath dirs).getLast? = some '/' ↔ dirs.length = 1) := by
  obtain ⟨m, x, rfl⟩ : ∃ m x, dirs = m ++ [x] :=
    ⟨dirs.dropLast, dirs.getLast hne, (List.dropLast_append_getLast hne).symm⟩
  obtain ⟨hxne, hxsl⟩ := hd x (by simp)
  by_cases hm : m = []
  · subst hm
    have h1 : rebuildPath [x] = ('/' :: x) ++ ['/'] := by simp [rebuildPath]
    rw [show ([] ++ [x] : List (List Char)) = [x] from rfl, h1, lastAppendSingleton]
    simp
  · have hmlen := List.length_pos.mpr hm
    have hlen : (m ++ [x]).length ≠ 1 := by
      simp only [List.length_append, List.length_singleton]
      omega
    have h1 : rebuildPath (m ++ [x]) =
        ((m.map (fun d => '/' :: d)).flatten) ++ ('/' :: x) := by
      simp [rebuildPath, hm, List.map_append]
    have h2 : (rebuildPath (m ++ [x])).getLast? = ('/' :: x).getLast? := by
      rw [h1]
      exact List.getLast?_append_of_ne_nil _ (by simp)
    have h3 : ('/' :: x).getLast? = some (x.getLast hxne) := by
      cases x with
      | nil => exact absurd rfl hxne
      | cons c cs =>
        rw [List.getLast?_cons_cons, List.getLast?_eq_getLast_of_ne_nil (by simp)]
    have h4 : x.getLast hxne ≠ '/' := by
      intro hx
      exact hxsl (hx ▸ List.getLast_mem hxne)
    rw [h2, h3]
    constructor
    · intro h
      exact absurd (Option.some_inj.mp h) h4
    · intro h
      exact absurd h hlen

/-- C8: `pfsd_normalize_path` tokenizes by `'/'`, rejects any component
of length ≥ `PFS_MAX_NAMELEN` with (negated) `ENAMETOOLONG`, keeps
exactly real-name components shorter than the bound (dropping `'.'`,
popping on `'..'` but never below the first segment, whose identity is
preserved), rejoins them with a leading `'/'` each, and appends a
trailing `'/'` exactly when a single segment remains, so `/pbd`
canonicalizes to `/pbd/`. -/
theorem C8_normalize_path :
    (∀ path : List Char, (∃ t ∈ tokenize path, PFS_MAX_NAMELEN ≤ t.length) →
      pfsd_normalize_path path = some (-ENAMETOOLONG, path))
    ∧ (∀ (path : List Char) (dirs : List (List Char)),
        normLoop (tokenize path) [] = .ok dirs → dirs ≠ [] →
        pfsd_normalize_path path = some (0, rebuildPath dirs)
        ∧ dirs.head? = ((tokenize path).filter realName).head?
        ∧ (∀ d ∈ dirs, d ∈ tokenize path ∧ d.length < PFS_MAX_NAMELEN ∧
            realName d = true)
        ∧ ((rebuildPath dirs).getLast? = some '/' ↔ dirs.length = 1))
    ∧ pfsd_normalize_path ['/', 'p', 'b', 'd'] = some (0, ['/', 'p', 'b', 'd', '/']) := by
  refine ⟨?_, ?_, by decide⟩
  · intro path hex
    have hne : path ≠ [] := by
      intro h
      subst h
      obtain ⟨t, ht, -⟩ := hex
      simp [tokenize, splitSlash] at ht
    simp only [pfsd_normalize_path, if_neg hne, normLoop_long (tokenize path) hex []]
  · intro path dirs h hnedirs
    have hpath : path ≠ [] := by
      intro hp
      subst hp
      rw [show tokenize [] = [] from by decide] at h
      simp only [normLoop, Except.ok.injEq] at h
      exact hnedirs h.symm
    refine ⟨?_, normLoop_head_nil (tokenize path) dirs h, ?_, ?_⟩
    · simp only [pfsd_normalize_path, if_neg hpath, h]
      rw [if_neg (fun hx => hnedirs (List.length_eq_zero.mp hx))]
    · intro d hd
      rcases normLoop_mem (tokenize path) [] dirs h d hd with hm | hm
      · exact absurd hm (List.not_mem_nil d)
      · exact hm
    · refine rebuildPath_getLast dirs hnedirs ?_
      intro d hd
      rcases normLoop_mem (tokenize path) [] dirs h d hd with hm | hm
      · exact absurd hm (List.not_mem_nil d)
      · exact tokenize_no_slash path d hm.1

set_option maxRecDepth 8192 in
/-- Witness for C8: the long-component rejection at `longCompPath` and
the success shape at `/pbd`. -/
theorem C8_normalize_path_witness :
    pfsd_normalize_path longCompPath = some (-ENAMETOOLONG, longCompPath)
    ∧ (pfsd_normalize_path ['/', 'p', 'b', 'd'] = some (0, rebuildPath [['p', 'b', 'd']])
       ∧ ([['p', 'b', 'd']] : List (List Char)).head? =
           ((tokenize ['/', 'p', 'b', 'd']).filter realName).head?
       ∧ (∀ d ∈ [['p', 'b', 'd']], d ∈ tokenize ['/', 'p', 'b', 'd'] ∧
           d.length < PFS_MAX_NAMELEN ∧ realName d = true)
       ∧ ((rebuildPath [['p', 'b', 'd']]).getLast? = some '/' ↔
           ([['p', 'b', 'd']] : List (List Char)).length = 1)) :=
  ⟨C8_normalize_path.1 longCompPath
      ⟨List.replicate PFS_MAX_NAMELEN 'a', by decide, by decide⟩,
   C8_normalize_path.2.1 ['/', 'p', 'b', 'd'] [['p', 'b', 'd']] (by rfl) (by decide)⟩

set_option maxRecDepth 8192 in
/-- C10 counterexample: `longCompPath` (`"/aaa…a/b"` with a
`PFS_MAX_NAMELEN`-character component) contains the real name `b`
shorter than `PFS_MAX_NAMELEN`, yet `pfsd_normalize_path` does not
return 0 on it — it fails with `-ENAMETOOLONG`; and `"/a/.."` does NOT
reach the `assert(ndirs > 0)`: it succeeds as `"/a/"` because `..` never
pops the first collected segment. -/
theorem C10_normalize_counterexample :
    (['b'] ∈ tokenize longCompPath ∧ realName ['b'] = true ∧
      (['b'] : List Char).length < PFS_MAX_NAMELEN)
    ∧ pfsd_normalize_path longCompPath = some (-ENAMETOOLONG, longCompPath)
    ∧ (-ENAMETOOLONG : Int) ≠ 0
    ∧ pfsd_normalize_path ['/', 'a', '/', '.', '.'] = some (0, ['/', 'a', '/']) := by
  refine ⟨⟨by decide, by decide, by decide⟩, by decide, by decide, by decide⟩

/-- C10 (amended): for every non-empty path that fits the path buffer,
all of whose components are shorter than `PFS_MAX_NAMELEN` and at least
one of which is a real name, `pfsd_normalize_path` terminates without
violating its `assert(ndirs > 0)` and returns 0; a path whose components
are all separators or dot components (such as `/`) reaches the assert. -/
theorem C10_normalize_totality :
    (∀ path : List Char,
      path.length < PFS_MAX_PATHLEN →
      (∀ t ∈ tokenize path, t.length < PFS_MAX_NAMELEN) →
      (∃ t ∈ tokenize path, realName t = true) →
      ∃ dirs, normLoop (tokenize path) [] = .ok dirs ∧ dirs ≠ [] ∧
        pfsd_normalize_path path = some (0, rebuildPath dirs))
    ∧ (∀ path : List Char, path ≠ [] →
      (∀ t ∈ tokenize path, t = ['.'] ∨ t = ['.', '.']) →
      pfsd_normalize_path path = none) := by
  constructor
  · intro path hplen hshort hreal
    obtain ⟨dirs, hok⟩ := normLoop_ok_of_short (tokenize path) [] hshort
      (by
        have := tokenize_count_le path
        simp only [List.length_nil, Nat.zero_add]
        omega)
    have hhd := normLoop_head_nil (tokenize path) dirs hok
    have hfilterne : (tokenize path).filter realName ≠ [] := by
      obtain ⟨t, ht, hr⟩ := hreal
      intro hx
      have hmem : t ∈ (tokenize path).filter realName := List.mem_filter.mpr ⟨ht, hr⟩
      rw [hx] at hmem
      exact List.not_mem_nil t hmem
    have hdirsne : dirs ≠ [] := by
      intro hx
      subst hx
      cases hfe : (tokenize path).filter realName with
      | nil => exact hfilterne hfe
      | cons a l => rw [hfe] at hhd; simp at hhd
    have hpne : path ≠ [] := by
      intro hx
      subst hx
      obtain ⟨t, ht, -⟩ := hreal
      simp [tokenize, splitSlash] at ht
    refine ⟨dirs, hok, hdirsne, ?_⟩
    simp only [pfsd_normalize_path, if_neg hpne, hok]
    rw [if_neg (fun hx => hdirsne (List.length_eq_zero.mp hx))]
  · intro path hne hdots
    simp only [pfsd_normalize_path, if_neg hne, normLoop_dots_only (tokenize path) hdots]
    rfl

/-- Witness for C10's amended statement: `/pbd` succeeds, `/` reaches the
assert. -/
theorem C10_normalize_totality_witness :
    (∃ dirs, normLoop (tokenize ['/', 'p', 'b', 'd']) [] = .ok dirs ∧ dirs ≠ [] ∧
      pfsd_normalize_path ['/', 'p', 'b', 'd'] = some (0, rebuildPath dirs))
    ∧ pfsd_normalize_path ['/'] = none :=
  ⟨C10_normalize_totality.1 ['/', 'p', 'b', 'd'] (by decide) (by decide)
      ⟨['p', 'b', 'd'], by decide, by decide⟩,
   C10_normalize_totality.2 ['/'] (by decide) (by decide)⟩

/-- C5 counterexample: when the meta lock succeeds but the hostid
fencing lock fails with `EACCES`, `pfs_mount_prepare` aborts immediately
after a single hostid-lock attempt, surfacing `EACCES` — it does not
retry that acquisition for 30 s and does not return `ETIMEDOUT`. -/
theorem C5_hostid_lock_not_retried :
    pfs_mount_prepare 4 1 3 ⟨fun _ => ⟨some 3, true⟩, ⟨some 4, false⟩⟩ =
      ⟨.error EACCES, 1, 1, -1, -1⟩
    ∧ EACCES ≠ ETIMEDOUT := by
  exact ⟨rfl, by decide⟩

/-- C5 (amended): every failed local fencing-lock acquisition sets errno
`EACCES` (given a lock-file path that fits the buffer); the meta-lock
(growfs-serialization) acquisition during a writable non-tool mount is
retried with 10 ms back-off through the whole 30 s budget
(`mountPrepareAttempts = 3001` attempts) before the mount gives up with
`ETIMEDOUT`; a non-`EACCES` failure of the loop aborts immediately; and
the hostid-lock acquisition is attempted exactly once, any failure
aborting the mount immediately with `EACCES`. -/
theorem C5_mount_prepare_lock_retry :
    (∀ (len : Nat) (hostid : Int) (att : LockAttempt) (fd : Int) (eo : Option Int),
      len + 26 < PFS_MAX_PATHLEN →
      pfsd_paxos_hostid_local_lock len hostid att = (fd, eo) → fd < 0 →
      eo = some EACCES)
    ∧ (∀ (len : Nat) (env : Nat → LockAttempt) (fuel i : Nat),
      len + 26 < PFS_MAX_PATHLEN →
      (∀ j, (env j).openFd = none ∨ (env j).fcntlOk = false) →
      mount_meta_lock_loop len env fuel i = (.error ETIMEDOUT, i + fuel))
    ∧ (∀ (len : Nat) (env : Nat → LockAttempt) (fuel i : Nat),
      PFS_MAX_PATHLEN ≤ len + 26 →
      mount_meta_lock_loop len env (fuel + 1) i = (.error ENAMETOOLONG, i + 1))
    ∧ (∀ (len : Nat) (hostid : Int) (flags : Nat) (env : PrepareEnv)
          (mAtt : Nat) (mfd : Int),
      len + 26 < PFS_MAX_PATHLEN →
      (env.hostidAtt.openFd = none ∨ env.hostidAtt.fcntlOk = false) →
      prepare_hostid len hostid flags env mAtt mfd =
        ⟨.error EACCES, mAtt, 1, -1, -1⟩)
    ∧ (∀ (len : Nat) (hostid : Int) (flags : Nat) (env : PrepareEnv),
      len < PFS_MAX_PBDLEN → flags &&& MNTFLG_WR ≠ 0 → flags &&& MNTFLG_TOOL = 0 →
      (∀ j, (env.metaAtt j).openFd = none ∨ (env.metaAtt j).fcntlOk = false) →
      pfs_mount_prepare len hostid flags env =
        ⟨.error ETIMEDOUT, mountPrepareAttempts, 0, -1, -1⟩) := by
  have hlockfail : ∀ (len : Nat) (hostid : Int) (att : LockAttempt),
      len + 26 < PFS_MAX_PATHLEN →
      (att.openFd = none ∨ att.fcntlOk = false) →
      pfsd_paxos_hostid_local_lock len hostid att = (-1, some EACCES) := by
    intro len hostid att hfit hfail
    simp only [pfsd_paxos_hostid_local_lock]
    rw [if_neg (by omega)]
    rcases hfo : att.openFd with - | fd
    · rfl
    · rcases hfail with h | h
      · rw [hfo] at h; exact absurd h (by simp)
      · rw [h]
        rfl
  have hloop : ∀ (len : Nat) (env : Nat → LockAttempt) (fuel i : Nat),
      len + 26 < PFS_MAX_PATHLEN →
      (∀ j, (env j).openFd = none ∨ (env j).fcntlOk = false) →
      mount_meta_lock_loop len env fuel i = (.error ETIMEDOUT, i + fuel) := by
    intro len env fuel
    induction fuel with
    | zero => intro i _ _; simp [mount_meta_lock_loop]
    | succ fuel ih =>
      intro i hfit hfail
      simp only [mount_meta_lock_loop]
      rw [hlockfail len _ (env i) hfit (hfail i)]
      dsimp only
      rw [if_neg (by omega), if_neg (by simp [EACCES])]
      rw [ih (i + 1) hfit hfail]
      refine congrArg _ ?_
      omega
  refine ⟨?_, hloop, ?_, ?_, ?_⟩
  · intro len hostid att fd eo hfit h hneg
    simp only [pfsd_paxos_hostid_local_lock] at h
    rw [if_neg (by omega)] at h
    rcases hfo : att.openFd with - | fd'
    · rw [hfo] at h
      dsimp only at h
      simp only [Prod.mk.injEq] at h
      exact h.2.symm
    · rw [hfo] at h
      dsimp only at h
      by_cases hfc : att.fcntlOk = true
      · rw [if_pos hfc] at h
        simp only [Prod.mk.injEq] at h
        obtain ⟨h1, -⟩ := h
        omega
      · rw [if_neg hfc] at h
        simp only [Prod.mk.injEq] at h
        exact h.2.symm
  · intro len env fuel i hlong
    simp only [mount_meta_lock_loop]
    rw [show pfsd_paxos_hostid_local_lock len ((DEFAULT_MAX_HOSTS : Int) + 1) (env i) =
        (-1, some ENAMETOOLONG) from by
      simp only [pfsd_paxos_hostid_local_lock]
      rw [if_pos hlong]]
    dsimp only
    rw [if_neg (by omega), if_pos (by decide)]
    rfl
  · intro len hostid flags env mAtt mfd hfit hfail
    simp only [prepare_hostid]
    rw [hlockfail len _ env.hostidAtt hfit hfail]
    dsimp only
    rw [if_neg (by omega), if_neg (by simp [EACCES])]
    rfl
  · intro len hostid flags env hlen hwr htool hfail
    have hfit : len + 26 < PFS_MAX_PATHLEN := by
      have h64 : PFS_MAX_PBDLEN + 26 < PFS_MAX_PATHLEN := by decide
      omega
    simp only [pfs_mount_prepare]
    rw [if_neg (by omega), if_neg hwr, if_pos htool,
      hloop len env.metaAtt mountPrepareAttempts 0 hfit hfail]
    norm_num

/-- Witness for C5: a two-attempt budget exhausting with `EACCES`
failures, an over-long pbdname aborting at once, a failing hostid lock,
and a full `pfs_mount_prepare` timing out. -/
theorem C5_mount_prepare_lock_retry_witness :
    (some EACCES = some EACCES)
    ∧ mount_meta_lock_loop 4 (fun _ => ⟨none, true⟩) 2 0 = (.error ETIMEDOUT, 0 + 2)
    ∧ mount_meta_lock_loop 4090 (fun _ => ⟨some 3, true⟩) (0 + 1) 0 =
        (.error ENAMETOOLONG, 0 + 1)
    ∧ prepare_hostid 4 1 3 ⟨fun _ => ⟨some 3, true⟩, ⟨none, true⟩⟩ 1 5 =
        ⟨.error EACCES, 1, 1, -1, -1⟩
    ∧ pfs_mount_prepare 4 1 3 ⟨fun _ => ⟨none, true⟩, ⟨some 4, true⟩⟩ =
        ⟨.error ETIMEDOUT, mountPrepareAttempts, 0, -1, -1⟩ :=
  ⟨C5_mount_prepare_lock_retry.1 4 7 ⟨none, true⟩ (-1) (some EACCES) (by decide)
      (by rfl) (by decide),
   C5_mount_prepare_lock_retry.2.1 4 (fun _ => ⟨none, true⟩) 2 0 (by decide)
      (fun _ => Or.inl rfl),
   C5_mount_prepare_lock_retry.2.2.1 4090 (fun _ => ⟨some 3, true⟩) 0 0 (by decide),
   C5_mount_prepare_lock_retry.2.2.2.1 4 1 3 ⟨fun _ => ⟨some 3, true⟩, ⟨none, true⟩⟩ 1 5
      (by decide) (Or.inl rfl),
   C5_mount_prepare_lock_retry.2.2.2.2 4 1 3 ⟨fun _ => ⟨none, true⟩, ⟨some 4, true⟩⟩
      (by decide) (by decide) (by decide) (fun _ => Or.inl rfl)⟩

/-! ## Helper lemmas on the fd table -/

/-- The decode step recovers the slot index stored by `fd_put_free`,
including the `-1` terminator ("(int)(((uint64_t)-1) / 2) == -1"). -/
theorem decodeLink_encode (g : Int) (h1 : -1 ≤ g) (h2 : g < 2 ^ 31) :
    decodeLink (2 * g + 1) = g := by
  unfold decodeLink
  dsimp only
  split <;> omega

theorem isChain_congr (tbl tbl' : Nat → Slot) :
    ∀ (chain : List Nat) (fl : Int), isChain tbl fl chain →
      (∀ g ∈ chain, tbl' g = tbl g) → isChain tbl' fl chain := by
  intro chain
  induction chain with
  | nil => intro fl h _; exact h
  | cons c rest ih =>
    intro fl h hsame
    obtain ⟨h1, h2, h3, h4⟩ := h
    exact ⟨h1, h2, (hsame c (List.mem_cons_self _ _)).trans h3,
      ih _ h4 (fun g hg => hsame g (List.mem_cons_of_mem _ hg))⟩

theorem isChain_head (tbl : Nat → Slot) (fl : Int) (chain : List Nat)
    (h : isChain tbl fl chain) : fl = flHead chain := by
  cases chain with
  | nil => exact h
  | cons c rest => exact h.1

theorem isChain_mem_enc (tbl : Nat → Slot) :
    ∀ (chain : List Nat) (fl : Int), isChain tbl fl chain →
      ∀ g ∈ chain, ∃ v, tbl g = Slot.enc v := by
  intro chain
  induction chain with
  | nil => intro fl _ g hg; exact absurd hg (List.not_mem_nil g)
  | cons c rest ih =>
    intro fl h g hg
    obtain ⟨-, -, h3, h4⟩ := h
    rcases List.mem_cons.mp hg with rfl | hg'
    · exact ⟨_, h3⟩
    · exact ih _ h4 g hg'

/-- A live slot lies in the touched prefix, off the free chain, and
records its own index. -/
theorem FdInv.live_char {s : FdState} {chain : List Nat} (inv : FdInv s chain)
    {i : Nat} {f : pfsd_file} (h : s.tbl i = Slot.live f) :
    i < s.nopen + chain.length ∧ i ∉ chain ∧ f.f_fd = (i : Int) := by
  have hnotmem : i ∉ chain := by
    intro hmem
    obtain ⟨v, hv⟩ := isChain_mem_enc s.tbl chain s.free_last inv.chainOk i hmem
    rw [h] at hv
    exact absurd hv (by simp)
  have hlt : i < s.nopen + chain.length := by
    by_contra hge
    rw [inv.empty_at i (by omega)] at h
    exact absurd h (by simp)
  obtain ⟨f', hf', hfd⟩ := inv.live_at i hlt hnotmem
  rw [h] at hf'
  cases hf'
  exact ⟨hlt, hnotmem, hfd⟩

/-- If any live slot exists, `fdtbl_nopen` is positive (the free chain
cannot cover the whole touched prefix). -/
theorem FdInv.nopen_pos {s : FdState} {chain : List Nat} (inv : FdInv s chain)
    {i : Nat} (hlt : i < s.nopen + chain.length) (hnot : i ∉ chain) :
    1 ≤ s.nopen := by
  by_contra h
  have hz : s.nopen = 0 := by omega
  have hsub : chain.toFinset ⊆ Finset.range (s.nopen + chain.length) := by
    intro x hx
    simp only [Finset.mem_range]
    exact inv.chain_lt x (List.mem_toFinset.mp hx)
  have hcard : (Finset.range (s.nopen + chain.length)).card ≤ chain.toFinset.card := by
    rw [Finset.card_range, List.toFinset_card_of_nodup inv.nodup]
    omega
  have heq := Finset.eq_of_subset_of_card_le hsub hcard
  have hin : i ∈ chain.toFinset := heq ▸ Finset.mem_range.mpr hlt
  exact hnot (List.mem_toFinset.mp hin)

theorem FdInv.with_nextid {s : FdState} {chain : List Nat} (inv : FdInv s chain)
    (k : Nat) : FdInv { s with nextid := k } chain :=
  ⟨inv.chainOk, inv.nodup, inv.used_le, inv.chain_lt, inv.live_at, inv.empty_at,
   inv.peak_ge⟩

/-- `pfsd_alloc_fd` either fails leaving the table unchanged (and then
only because it is full, see below) or returns a nonnegative descriptor
and preserves the invariant. -/
theorem pfsd_alloc_fd_inv (file : pfsd_file) (s : FdState) (chain : List Nat)
    (inv : FdInv s chain) :
    ((pfsd_alloc_fd file s).1 = -1 ∧ (pfsd_alloc_fd file s).2 = s) ∨
      (0 ≤ (pfsd_alloc_fd file s).1 ∧ ∃ chain', FdInv (pfsd_alloc_fd file s).2 chain') := by
  by_cases hfl : s.free_last < 0
  · have hchain : chain = [] := by
      cases chain with
      | nil => rfl
      | cons c rest =>
        have h1 := inv.chainOk.1
        omega
    subst hchain
    by_cases hn : s.nopen < PFSD_MAX_NFD
    · right
      have halloc : pfsd_alloc_fd file s = ((s.nopen : Int),
          { s with tbl := Function.update s.tbl s.nopen (Slot.live { file with f_fd := (s.nopen : Int) }), nopen := s.nopen + 1, peak := max s.peak (s.nopen + 1) }) := by
        unfold pfsd_alloc_fd
        rw [if_pos hfl, if_pos hn]
      rw [halloc]
      dsimp only
      refine ⟨by omega, [], ?_, List.nodup_nil, ?_, ?_, ?_, ?_, ?_⟩
      · exact inv.chainOk
      · simpa using hn
      · intro f hf
        exact absurd hf (List.not_mem_nil f)
      · intro i hi hmem
        dsimp only
        simp only [List.length_nil, Nat.add_zero] at hi
        by_cases hieq : i = s.nopen
        · subst hieq
          exact ⟨_, Function.update_same _ _ _, rfl⟩
        · have hi' : i < s.nopen + ([] : List Nat).length := by
            simp only [List.length_nil, Nat.add_zero]
            omega
          obtain ⟨f, hf, hfd⟩ := inv.live_at i hi' hmem
          exact ⟨f, by rw [Function.update_noteq hieq]; exact hf, hfd⟩
      · intro i hi
        dsimp only
        simp only [List.length_nil, Nat.add_zero] at hi
        have hieq : i ≠ s.nopen := by omega
        rw [Function.update_noteq hieq]
        exact inv.empty_at i (by simp only [List.length_nil, Nat.add_zero]; omega)
      · simp only [List.length_nil, Nat.add_zero]
        exact le_max_right _ _
    · left
      have halloc : pfsd_alloc_fd file s = (-1, s) := by
        unfold pfsd_alloc_fd
        rw [if_pos hfl, if_neg hn]
      rw [halloc]
      exact ⟨rfl, rfl⟩
  · cases chain with
    | nil =>
      have hc : s.free_last = -1 := inv.chainOk
      omega
    | cons c rest =>
      obtain ⟨hc1, hc2, hc3, hc4⟩ := inv.chainOk
      right
      have htn : s.free_last.toNat = c := by omega
      have hdec : decodeLink ((s.tbl c).word) = flHead rest := by
        rw [hc3]
        show decodeLink (2 * flHead rest + 1) = flHead rest
        apply decodeLink_encode
        · cases rest with
          | nil => norm_num [flHead]
          | cons d l' =>
            simp only [flHead]
            omega
        · cases rest with
          | nil => norm_num [flHead]
          | cons d l' =>
            have hd := inv.chain_lt d
              (List.mem_cons_of_mem _ (List.mem_cons_self _ _))
            have hle := inv.used_le
            have hN : PFSD_MAX_NFD < 2 ^ 31 := by decide
            simp only [flHead]
            omega
      have halloc : pfsd_alloc_fd file s = ((c : Int),
          { s with tbl := Function.update s.tbl c (Slot.live { file with f_fd := (c : Int) }), free_last := flHead rest, nopen := s.nopen + 1, peak := max s.peak (s.nopen + 1) }) := by
        unfold pfsd_alloc_fd
        rw [if_neg hfl, htn]
        dsimp only
        rw [hdec]
      rw [halloc]
      dsimp only
      have hcnotin : c ∉ rest := (List.nodup_cons.mp inv.nodup).1
      have hlen : (c :: rest).length = rest.length + 1 := rfl
      refine ⟨by omega, rest, ?_, (List.nodup_cons.mp inv.nodup).2, ?_, ?_, ?_, ?_, ?_⟩
      · dsimp only
        refine isChain_congr _ _ rest _ hc4 ?_
        intro g hg
        refine Function.update_noteq ?_ _ _
        intro he
        rw [he] at hg
        exact hcnotin hg
      · dsimp only
        have := inv.used_le
        rw [hlen] at this
        omega
      · intro f hf
        dsimp only
        have := inv.chain_lt f (List.mem_cons_of_mem _ hf)
        rw [hlen] at this
        omega
      · intro i hi hmem
        dsimp only
        dsimp only at hi
        by_cases hieq : i = c
        · subst hieq
          exact ⟨_, Function.update_same _ _ _, rfl⟩
        · have hmem' : i ∉ c :: rest := by
            intro hx
            rcases List.mem_cons.mp hx with h | h
            · exact hieq h
            · exact hmem h
          have hi' : i < s.nopen + (c :: rest).length := by
            rw [hlen]
            omega
          obtain ⟨f, hf, hfd⟩ := inv.live_at i hi' hmem'
          exact ⟨f, by rw [Function.update_noteq hieq]; exact hf, hfd⟩
      · intro i hi
        dsimp only
        dsimp only at hi
        have hclt := inv.chain_lt c (List.mem_cons_self _ _)
        rw [hlen] at hclt
        have hieq : i ≠ c := by omega
        rw [Function.update_noteq hieq]
        refine inv.empty_at i ?_
        rw [hlen]
        omega
      · dsimp only
        have hp := inv.peak_ge
        rw [hlen] at hp
        have hp' : s.nopen + 1 + rest.length ≤ s.peak := by omega
        exact le_trans hp' (le_max_left _ _)

/-- Pushing a live slot onto the free list preserves the invariant, with
the slot's index prepended to the ghost chain. -/
theorem fd_put_free_inv (s : FdState) (chain : List Nat) (inv : FdInv s chain)
    (fd : Nat) (f : pfsd_file) (hlive : s.tbl fd = Slot.live f) :
    FdInv (fd_put_free fd s) (fd :: chain) := by
  obtain ⟨hlt, hnot, hfd⟩ := inv.live_char hlive
  have hpos : 1 ≤ s.nopen := inv.nopen_pos hlt hnot
  have hlen : (fd :: chain).length = chain.length + 1 := rfl
  have hused := inv.used_le
  unfold fd_put_free
  refine ⟨?_, List.nodup_cons.mpr ⟨hnot, inv.nodup⟩, ?_, ?_, ?_, ?_, ?_⟩
  · dsimp only
    refine ⟨rfl, by omega, ?_, ?_⟩
    · rw [Function.update_same]
      rw [isChain_head s.tbl s.free_last chain inv.chainOk]
    · have hch : isChain s.tbl (flHead chain) chain := by
        rw [← isChain_head s.tbl s.free_last chain inv.chainOk]
        exact inv.chainOk
      refine isChain_congr _ _ chain _ hch ?_
      intro g hg
      refine Function.update_noteq ?_ _ _
      intro he
      rw [he] at hg
      exact hnot hg
  · dsimp only
    rw [hlen]
    omega
  · intro g hg
    dsimp only
    rw [hlen]
    rcases List.mem_cons.mp hg with rfl | hg'
    · omega
    · have := inv.chain_lt g hg'
      omega
  · intro i hi hmem
    dsimp only
    dsimp only at hi
    rw [hlen] at hi
    have hine : i ≠ fd := fun he => hmem (he ▸ List.mem_cons_self _ _)
    have hinc : i ∉ chain := fun hc => hmem (List.mem_cons_of_mem _ hc)
    obtain ⟨g, hgl, hgfd⟩ := inv.live_at i (by omega) hinc
    exact ⟨g, by rw [Function.update_noteq hine]; exact hgl, hgfd⟩
  · intro i hi
    dsimp only
    dsimp only at hi
    rw [hlen] at hi
    have hine : i ≠ fd := by omega
    rw [Function.update_noteq hine]
    exact inv.empty_at i (by omega)
  · dsimp only
    rw [hlen]
    have := inv.peak_ge
    omega

/-- `pfsd_close` preserves the invariant for some chain (unchanged on
`EBADF`, extended by the freed slot otherwise). -/
theorem pfsd_close_inv (s : FdState) (chain : List Nat) (inv : FdInv s chain)
    (fd : Int) : ∃ chain', FdInv (pfsd_close s fd).2.2 chain' := by
  unfold pfsd_close
  cases hg : pfsd_get_file s fd with
  | none => exact ⟨chain, inv⟩
  | some f =>
    dsimp only
    unfold pfsd_get_file at hg
    by_cases hb : 0 ≤ fd ∧ fd < (PFSD_MAX_NFD : Int)
    · rw [if_pos hb] at hg
      unfold fd_to_file at hg
      have hlive : s.tbl fd.toNat = Slot.live f := by
        cases htbl : s.tbl fd.toNat with
        | empty => rw [htbl] at hg; exact absurd hg (by simp)
        | enc v => rw [htbl] at hg; exact absurd hg (by simp)
        | live g =>
          rw [htbl] at hg
          simp only [Option.some.injEq] at hg
          rw [hg]
      have hfd : f.f_fd = (fd.toNat : Int) := (inv.live_char hlive).2.2
      have hfdt : f.f_fd.toNat = fd.toNat := by
        rw [hfd]
        exact Int.toNat_natCast _
      rw [hfdt]
      exact ⟨fd.toNat :: chain, fd_put_free_inv s chain inv fd.toNat f hlive⟩
    · rw [if_neg hb] at hg
      exact absurd hg (by simp)

/-- Each trace step preserves the fd-table invariant. -/
theorem stepFd_inv (s : FdState) (chain : List Nat) (inv : FdInv s chain)
    (op : FdOp) : ∃ chain', FdInv (stepFd s op) chain' := by
  rcases op with ⟨mp, flags⟩ | ⟨fd⟩
  · have harg := pfsd_alloc_fd_inv { f_fd := -1, f_inode := (s.nextid : Int), f_flags := flags, f_offset := 0, f_conn_id := (mp : Int), f_mp := some mp, f_refcnt := 0 } s chain inv
    unfold stepFd
    dsimp only
    rcases halloc : pfsd_alloc_fd { f_fd := -1, f_inode := (s.nextid : Int), f_flags := flags, f_offset := 0, f_conn_id := (mp : Int), f_mp := some mp, f_refcnt := 0 } s with ⟨fd, s'⟩
    rw [halloc] at harg
    dsimp only at harg
    rcases harg with ⟨h1, -⟩ | ⟨h1, chain', hinv⟩
    · rw [if_pos h1]
      exact ⟨chain, inv⟩
    · rw [if_neg (by omega)]
      exact ⟨chain', hinv.with_nextid _⟩
  · exact pfsd_close_inv s chain inv fd

/-- The initial table satisfies the invariant with the empty chain. -/
theorem initFdState_inv : FdInv initFdState [] := by
  refine ⟨rfl, List.nodup_nil, ?_, ?_, ?_, ?_, ?_⟩
  · simp [initFdState, PFSD_MAX_NFD]
  · intro f hf
    exact absurd hf (List.not_mem_nil f)
  · intro i hi hmem
    simp [initFdState] at hi
  · intro i _
    rfl
  · simp [initFdState]

/-- Every reachable fd-table state satisfies the invariant. -/
theorem runFd_inv (ops : List FdOp) : ∃ chain, FdInv (runFd ops) chain := by
  unfold runFd
  have main : ∀ (l : List FdOp) (s : FdState) (chain : List Nat), FdInv s chain →
      ∃ chain', FdInv (l.foldl stepFd s) chain' := by
    intro l
    induction l with
    | nil =>
      intro s chain inv
      exact ⟨chain, inv⟩
    | cons op rest ih =>
      intro s chain inv
      obtain ⟨chain', hinv'⟩ := stepFd_inv s chain inv op
      exact ih _ _ hinv'
  exact main ops initFdState [] initFdState_inv

/-- A live descriptor is below the high-water mark of simultaneously
open files. -/
theorem FdInv.live_lt_peak {s : FdState} {chain : List Nat} (inv : FdInv s chain)
    {i : Nat} {f : pfsd_file} (h : s.tbl i = Slot.live f) : i < s.peak := by
  obtain ⟨hlt, -, -⟩ := inv.live_char h
  have := inv.peak_ge
  omega

/-- Under the invariant the number of live slots is exactly
`fdtbl_nopen`. -/
theorem FdInv.countLive_eq {s : FdState} {chain : List Nat} (inv : FdInv s chain) :
    countLive s = s.nopen := by
  unfold countLive
  have hsub : chain.toFinset ⊆ Finset.range (s.nopen + chain.length) := by
    intro x hx
    exact Finset.mem_range.mpr (inv.chain_lt x (List.mem_toFinset.mp hx))
  have hset : (Finset.range PFSD_MAX_NFD).filter (fun i => (fd_to_file s.tbl i).isSome) = Finset.range (s.nopen + chain.length) \ chain.toFinset := by
    ext i
    simp only [Finset.mem_filter, Finset.mem_range, Finset.mem_sdiff, List.mem_toFinset]
    constructor
    · rintro ⟨hiN, hsome⟩
      cases hl : s.tbl i with
      | live g =>
        obtain ⟨h1, h2, -⟩ := inv.live_char hl
        exact ⟨h1, h2⟩
      | empty =>
        unfold fd_to_file at hsome
        rw [hl] at hsome
        simp at hsome
      | enc v =>
        unfold fd_to_file at hsome
        rw [hl] at hsome
        simp at hsome
    · rintro ⟨hi, hnot⟩
      obtain ⟨g, hg, -⟩ := inv.live_at i hi hnot
      have hiN : i < PFSD_MAX_NFD := by
        have := inv.used_le
        omega
      refine ⟨hiN, ?_⟩
      simp [fd_to_file, hg]
  rw [hset, Finset.card_sdiff hsub, Finset.card_range,
    List.toFinset_card_of_nodup inv.nodup]
  omega

/-- Under the invariant, allocation fails exactly when `fdtbl_nopen`
has reached `PFSD_MAX_NFD`. -/
theorem pfsd_alloc_fd_fail_iff (file : pfsd_file) (s : FdState) (chain : List Nat)
    (inv : FdInv s chain) :
    (pfsd_alloc_fd file s).1 = -1 ↔ s.nopen = PFSD_MAX_NFD := by
  constructor
  · intro h
    unfold pfsd_alloc_fd at h
    by_cases hfl : s.free_last < 0
    · rw [if_pos hfl] at h
      by_cases hn : s.nopen < PFSD_MAX_NFD
      · rw [if_pos hn] at h
        dsimp only at h
        omega
      · have := inv.used_le
        omega
    · rw [if_neg hfl] at h
      dsimp only at h
      omega
  · intro h
    have hchain : chain = [] := by
      have := inv.used_le
      cases chain with
      | nil => rfl
      | cons c rest =>
        rw [List.length_cons] at this
        omega
    subst hchain
    have hfl : s.free_last = -1 := inv.chainOk
    unfold pfsd_alloc_fd
    rw [if_pos (by omega), if_neg (by omega)]

/-- Closing a live descriptor succeeds, and the very next allocation
hands the same descriptor back (LIFO reuse of the free list). -/
theorem close_open_lifo (s : FdState) (chain : List Nat) (inv : FdInv s chain)
    (fd : Nat) (f file' : pfsd_file) (hlive : s.tbl fd = Slot.live f) :
    (pfsd_close s (fd : Int)).1 = 0 ∧
      (pfsd_alloc_fd file' (pfsd_close s (fd : Int)).2.2).1 = (fd : Int) := by
  obtain ⟨hlt, hnot, hfd⟩ := inv.live_char hlive
  have hused := inv.used_le
  have hget : pfsd_get_file s (fd : Int) = some f := by
    unfold pfsd_get_file
    rw [if_pos (by omega)]
    unfold fd_to_file
    rw [Int.toNat_natCast, hlive]
  have hfdt : f.f_fd.toNat = fd := by
    rw [hfd]
    exact Int.toNat_natCast _
  rw [pfsd_close, hget]
  dsimp only
  refine ⟨rfl, ?_⟩
  rw [hfdt, fd_put_free, pfsd_alloc_fd]
  dsimp only
  rw [if_neg (by omega)]
  dsimp only
  rw [Int.toNat_natCast]

/-- **C6** — over every sequence of `open`/`close` calls on the fd table:
every live descriptor is strictly below the high-water mark of
simultaneously open files; closing a live descriptor succeeds and the
next allocation returns exactly that descriptor (LIFO reuse of the
free list embedded in the slot array); and the `pfsd_open` descriptor
step fails — returning `-1` with errno `EMFILE` — exactly when the
table holds `PFSD_MAX_NFD` (102 400) live entries. -/
theorem C6_fd_table_free_list (ops : List FdOp) :
    (∀ (fd : Nat) (f : pfsd_file), (runFd ops).tbl fd = Slot.live f →
      fd < (runFd ops).peak) ∧
    (∀ (fd : Nat) (f file' : pfsd_file), (runFd ops).tbl fd = Slot.live f →
      (pfsd_close (runFd ops) (fd : Int)).1 = 0 ∧
        (pfsd_alloc_fd file' (pfsd_close (runFd ops) (fd : Int)).2.2).1 = (fd : Int)) ∧
    (∀ file : pfsd_file,
      ((pfsd_open_fd file (runFd ops)).1 = -1 ∧
          (pfsd_open_fd file (runFd ops)).2.1 = some EMFILE) ↔
        countLive (runFd ops) = PFSD_MAX_NFD) := by
  obtain ⟨chain, inv⟩ := runFd_inv ops
  refine ⟨?_, ?_, ?_⟩
  · intro fd f h
    exact inv.live_lt_peak h
  · intro fd f file' h
    exact close_open_lifo _ chain inv fd f file' h
  · intro file
    have hiff := pfsd_alloc_fd_fail_iff file (runFd ops) chain inv
    unfold pfsd_open_fd
    rcases halloc : pfsd_alloc_fd file (runFd ops) with ⟨fd, s'⟩
    rw [halloc] at hiff
    dsimp only at hiff
    dsimp only
    constructor
    · rintro ⟨-, h2⟩
      by_cases hf : fd = -1
      · rw [inv.countLive_eq]
        exact hiff.mp hf
      · rw [if_neg hf] at h2
        exact absurd h2 (by simp)
    · intro hc
      have hf : fd = -1 := by
        refine hiff.mpr ?_
        rw [← inv.countLive_eq]
        exact hc
      rw [if_pos hf]
      exact ⟨rfl, rfl⟩

theorem C6_fd_table_free_list_witness :
    (0 : Nat) < (runFd [FdOp.open 7 0]).peak ∧
    (pfsd_close (runFd [FdOp.open 7 0]) ((0 : Nat) : Int)).1 = 0 ∧
    (pfsd_alloc_fd ⟨0, 0, 0, 0, 7, some 7, 0⟩ (pfsd_close (runFd [FdOp.open 7 0]) ((0 : Nat) : Int)).2.2).1 = ((0 : Nat) : Int) := by
  obtain ⟨h1, h2, -⟩ := C6_fd_table_free_list [FdOp.open 7 0]
  have hl : (runFd [FdOp.open 7 0]).tbl 0 = Slot.live ⟨0, 0, 0, 0, 7, some 7, 0⟩ := by
    rfl
  obtain ⟨h2a, h2b⟩ := h2 0 ⟨0, 0, 0, 0, 7, some 7, 0⟩ ⟨0, 0, 0, 0, 7, some 7, 0⟩ hl
  exact ⟨h1 0 ⟨0, 0, 0, 0, 7, some 7, 0⟩ hl, h2a, h2b⟩

/-- **C3** — after a successful `umount` of mount `m`, every live file
handle whose `f_mp` referenced `m` has `f_conn_id = -1` and `f_mp =
NULL`, and the rewrite happened between the wrlock and unlock of that
file's lock in the scan's trace; every subsequent operation on such a
descriptor fails in the `PFSD_SDK_GET_FILE` prologue with `ENODEV`,
while a subsequent `close` of it returns 0. -/
theorem C3_umount_invalidates (s : FdState) (mp : Nat) (i : Nat) (f : pfsd_file)
    (hi : i < PFSD_MAX_NFD) (hlive : s.tbl i = Slot.live f)
    (hmp : f.f_mp = some mp) :
    pfsd_umount true mp s = (0, pfsd_close_all_files mp s) ∧
    (pfsd_close_all_files mp s).tbl i =
      Slot.live { f with f_conn_id := -1, f_mp := none } ∧
    pfsd_sdk_get_file (pfsd_close_all_files mp s) (i : Int) = .error ENODEV ∧
    (pfsd_close (pfsd_close_all_files mp s) (i : Int)).1 = 0 ∧
    (pfsd_close (pfsd_close_all_files mp s) (i : Int)).2.1 = none ∧
    i ∈ affectedFds mp s ∧
    ∃ pre post, pfsd_close_all_files_trace mp s =
      pre ++ [UmountEvt.wrlock i, UmountEvt.setFields i, UmountEvt.unlock i] ++ post := by
  have htbl' : (pfsd_close_all_files mp s).tbl i =
      Slot.live { f with f_conn_id := -1, f_mp := none } := by
    show (if i < PFSD_MAX_NFD then invalidateSlot mp (s.tbl i) else s.tbl i) = _
    rw [if_pos hi, hlive]
    unfold invalidateSlot
    dsimp only
    rw [if_pos hmp]
  have hget : pfsd_get_file (pfsd_close_all_files mp s) (i : Int) =
      some { f with f_conn_id := -1, f_mp := none } := by
    unfold pfsd_get_file
    rw [if_pos (by omega)]
    unfold fd_to_file
    rw [Int.toNat_natCast, htbl']
  have hmem : i ∈ affectedFds mp s := by
    unfold affectedFds
    rw [List.mem_filter]
    refine ⟨List.mem_range.mpr hi, ?_⟩
    simp [fd_to_file, hlive, hmp]
  refine ⟨rfl, htbl', ?_, ?_, ?_, hmem, ?_⟩
  · rw [pfsd_sdk_get_file, hget]
  · rw [pfsd_close, hget]
  · rw [pfsd_close, hget]
  · obtain ⟨l1, l2, hsplit⟩ := List.append_of_mem hmem
    refine ⟨l1.flatMap fun fd => [UmountEvt.wrlock fd, UmountEvt.setFields fd, UmountEvt.unlock fd],
      l2.flatMap fun fd => [UmountEvt.wrlock fd, UmountEvt.setFields fd, UmountEvt.unlock fd], ?_⟩
    unfold pfsd_close_all_files_trace
    rw [hsplit]
    simp

theorem C3_umount_invalidates_witness :
    pfsd_sdk_get_file (pfsd_close_all_files 3 (runFd [FdOp.open 3 0])) ((0 : Nat) : Int) = .error ENODEV ∧
    (pfsd_close (pfsd_close_all_files 3 (runFd [FdOp.open 3 0])) ((0 : Nat) : Int)).1 = 0 ∧
    (0 : Nat) ∈ affectedFds 3 (runFd [FdOp.open 3 0]) := by
  obtain ⟨-, -, h3, h4, -, h6, -⟩ := C3_umount_invalidates (runFd [FdOp.open 3 0]) 3 0 ⟨0, 0, 0, 0, 3, some 3, 0⟩ (by decide) (by rfl) (by rfl)
  exact ⟨h3, h4, h6⟩

/-- **C4** — the claim says the atfork-child fd-table reinitialization
leaves no slot of the table holding a live pointer, so every descriptor
open in the parent fails with `EBADF` in the child.  The source's
`memset(fdtbl, 0, sizeof(*fdtbl))` zeroes `sizeof(pfsd_file_t *)` = 8
bytes — exactly slot 0 — so with descriptors 0 and 1 open before the
fork, the child's table has `fdtbl_nopen = 0` and an empty free list,
descriptor 0 fails with `EBADF` as claimed, but descriptor 1 still
holds a live pointer and `pfsd_sdk_get_file` returns its stale handle
instead of failing. -/
theorem C4_reinit_leaves_fd1_live :
    (pfsd_sdk_file_reinit (runFd [FdOp.open 7 0, FdOp.open 7 0])).nopen = 0 ∧
    (pfsd_sdk_file_reinit (runFd [FdOp.open 7 0, FdOp.open 7 0])).free_last = -1 ∧
    pfsd_sdk_get_file (pfsd_sdk_file_reinit (runFd [FdOp.open 7 0, FdOp.open 7 0])) 0 = .error EBADF ∧
    pfsd_sdk_get_file (pfsd_sdk_file_reinit (runFd [FdOp.open 7 0, FdOp.open 7 0])) 1 = .ok ⟨1, 1, 0, 0, 7, some 7, 0⟩ :=
  ⟨rfl, rfl, rfl, rfl⟩

end PFSD
